import Mathlib

/-!
Verification development for the marsi metabolite-manipulation and
nearest-neighbor subsystems.

The definitions below are shallow embeddings of the Python source:
  * `marsi/cobra/flux_analysis/manipulation.py` (knockout_metabolite,
    inhibit_metabolite, compete_metabolite — big-M variants),
  * `marsi/processing/models.py` (inhibit_metabolite, knockout_metabolite,
    search_metabolites, apply_antimetabolite,
    test_reaction_knockout_replacements),
  * `marsi/metaheuristic/optimization.py` (AntimetaboliteEvaluator),
  * `marsi/cobra/strain_design/evolutionary.py`
    (process_metabolite_knockout_solution),
  * `marsi/nearest_neighbors/__init__.py` (_build_nearest_neighbors_model);
    the NearestNeighbors / DistributedNearestNeighbors shard classes are not
    part of the Python sources available here, so they are modelled from the
    specification (see the doc comments marked `Modelled from the spec:`).

Python floats are embedded as `ℚ` (the code only compares, scales and copies
bound values; no float rounding is relied upon by the claims), reaction and
metabolite collections as lists in model order, and fallible code as `Except`.
-/

namespace Marsi

/-- A metabolite as seen by the manipulation code: `cobra.Metabolite` with its
`id` and `compartment` attributes. -/
structure Metabolite where
  id : String
  compartment : String
deriving DecidableEq

/-- A reaction: `cobra.Reaction` with mutable lower/upper bounds and its
stoichiometry map `reaction.metabolites` (metabolite, coefficient). -/
structure Reaction where
  id : String
  lowerBound : ℚ
  upperBound : ℚ
  metabolites : List (Metabolite × ℚ)
deriving DecidableEq

/-- `cobra.Reaction.reversibility`: `lower_bound < 0 and upper_bound > 0`. -/
def Reaction.reversibility (r : Reaction) : Bool :=
  decide (r.lowerBound < 0) && decide (0 < r.upperBound)

/-- `reaction.metabolites[met]`: the stoichiometric coefficient of `met`
(0 if the metabolite does not participate; the Python code only reads it for
participating metabolites). -/
def Reaction.coefficient (r : Reaction) (m : Metabolite) : ℚ :=
  (((r.metabolites.find? fun p => decide (p.1 = m)).map Prod.snd).getD 0)

/-- Whether the metabolite participates in the reaction
(`reaction in metabolite.reactions`). -/
def Reaction.touches (r : Reaction) (m : Metabolite) : Bool :=
  r.metabolites.any fun p => decide (p.1 = m)

/-- cameo `SolverBasedModel.exchanges` membership: a reaction with no
reactants or no products. -/
def Reaction.isExchange (r : Reaction) : Bool :=
  (r.metabolites.filter fun p => decide (p.2 < 0)).isEmpty ||
  (r.metabolites.filter fun p => decide (0 < p.2)).isEmpty

/-- The transport filter used by all manipulation functions:
`not len(set(m.compartment for m in r.metabolites)) > 1`. -/
def Reaction.singleCompartment (r : Reaction) : Bool :=
  decide ((r.metabolites.map fun p => p.1.compartment).dedup.length ≤ 1)

/-- The model: `cameo.core.SolverBasedModel`, with its reaction list and its
metabolite list, both in model order. -/
structure Model where
  reactions : List Reaction
  metabolites : List Metabolite
deriving DecidableEq

/-- `metabolite.reactions` — the reactions the metabolite participates in
(the frozenset, enumerated here in model order). -/
def Model.metaboliteReactions (mdl : Model) (m : Metabolite) : List Reaction :=
  mdl.reactions.filter fun r => r.touches m

/-- `model.reactions.get_by_id(rid)` (first reaction with the given id). -/
def Model.findReaction (mdl : Model) (rid : String) : Option Reaction :=
  mdl.reactions.find? fun r => decide (r.id = rid)

/-- `rid in model.reactions` (DictList membership is by id). -/
def Model.hasReaction (mdl : Model) (rid : String) : Bool :=
  mdl.reactions.any fun r => decide (r.id = rid)

/-- A primitive model mutation recorded against a TimeMachine:
`reaction.change_bounds(lb=…, ub=…, time_machine=tm)` (a `none` component
leaves that bound untouched) or `model.add_reactions([r])` as performed by
`model.add_exchange`. -/
inductive BoundOp
  | changeBounds (rid : String) (lb ub : Option ℚ)
  | addReaction (r : Reaction)
deriving DecidableEq

/-- An undo action stored in the TimeMachine: restore a reaction's two bounds
to their recorded prior values, or remove the reaction that was just appended
(cameo undoes `add_exchange` by removing that very reaction object, which sits
at the end of the reaction list). -/
inductive UndoAction
  | restoreBounds (rid : String) (lb ub : ℚ)
  | dropAddedReaction
deriving DecidableEq

/-- Apply an optional-bounds update to one reaction. -/
def setOptBounds (lb ub : Option ℚ) (r : Reaction) : Reaction :=
  { r with lowerBound := lb.getD r.lowerBound, upperBound := ub.getD r.upperBound }

/-- Update the first reaction satisfying `p` (the Python code mutates the
unique reaction object with a given id in place). -/
def updateFirst (p : Reaction → Bool) (f : Reaction → Reaction) :
    List Reaction → List Reaction
  | [] => []
  | r :: rs => if p r then f r :: rs else r :: updateFirst p f rs

/-- Run one mutation, returning the new model and the undo action the
TimeMachine records for it. -/
def Model.applyOp (mdl : Model) : BoundOp → Model × UndoAction
  | .changeBounds rid lb ub =>
    ({ mdl with reactions := updateFirst (fun r => decide (r.id = rid)) (setOptBounds lb ub) mdl.reactions },
     .restoreBounds rid
       (((mdl.findReaction rid).map Reaction.lowerBound).getD 0)
       (((mdl.findReaction rid).map Reaction.upperBound).getD 0))
  | .addReaction r =>
    ({ mdl with reactions := mdl.reactions ++ [r] }, .dropAddedReaction)

/-- Execute one undo action. -/
def Model.runUndo (mdl : Model) : UndoAction → Model
  | .restoreBounds rid lb ub =>
    { mdl with reactions := updateFirst (fun r => decide (r.id = rid)) (setOptBounds (some lb) (some ub)) mdl.reactions }
  | .dropAddedReaction => { mdl with reactions := mdl.reactions.dropLast }

/-- Run a list of mutations inside one TimeMachine scope; the returned undo
stack holds the most recent action first, the order in which cameo's
TimeMachine rolls back on scope exit. -/
def Model.applyOps (mdl : Model) : List BoundOp → Model × List UndoAction
  | [] => (mdl, [])
  | op :: ops =>
    let s := mdl.applyOp op
    let t := s.1.applyOps ops
    (t.1, t.2 ++ [s.2])

/-- TimeMachine rollback on scope exit: run the undo actions, most recent
first. -/
def Model.rollback (mdl : Model) (undos : List UndoAction) : Model :=
  undos.foldl Model.runUndo mdl

theorem setOptBounds_id (nl nu : Option ℚ) (r : Reaction) :
    (setOptBounds nl nu r).id = r.id := rfl

theorem updateFirst_restoreBounds_cancel (rid : String) (nl nu : Option ℚ) :
    ∀ l : List Reaction,
      updateFirst (fun r => decide (r.id = rid))
        (setOptBounds (some (((l.find? fun r => decide (r.id = rid)).map Reaction.lowerBound).getD 0))
                      (some (((l.find? fun r => decide (r.id = rid)).map Reaction.upperBound).getD 0)))
        (updateFirst (fun r => decide (r.id = rid)) (setOptBounds nl nu) l) = l := by
  intro l
  induction l with
  | nil => rfl
  | cons r rs ih =>
    by_cases hp : (fun r : Reaction => decide (r.id = rid)) r = true
    · have hfind : List.find? (fun r => decide (r.id = rid)) (r :: rs) = some r :=
        List.find?_cons_of_pos _ hp
      rw [hfind]
      have h1 : updateFirst (fun r => decide (r.id = rid)) (setOptBounds nl nu) (r :: rs) =
          setOptBounds nl nu r :: rs := by
        simp [updateFirst, hp]
      rw [h1]
      have hpf : (fun r : Reaction => decide (r.id = rid)) (setOptBounds nl nu r) = true := hp
      have h2 : updateFirst (fun r => decide (r.id = rid))
          (setOptBounds (some ((Option.map Reaction.lowerBound (some r)).getD 0))
            (some ((Option.map Reaction.upperBound (some r)).getD 0)))
          (setOptBounds nl nu r :: rs) =
          setOptBounds (some ((Option.map Reaction.lowerBound (some r)).getD 0))
            (some ((Option.map Reaction.upperBound (some r)).getD 0))
            (setOptBounds nl nu r) :: rs := by
        simp [updateFirst, hpf]
      rw [h2]
      have h3 : setOptBounds (some ((Option.map Reaction.lowerBound (some r)).getD 0))
          (some ((Option.map Reaction.upperBound (some r)).getD 0))
          (setOptBounds nl nu r) = r := by
        cases r
        simp [setOptBounds]
      rw [h3]
    · have hfind : List.find? (fun r => decide (r.id = rid)) (r :: rs) =
          List.find? (fun r => decide (r.id = rid)) rs :=
        List.find?_cons_of_neg _ hp
      rw [hfind]
      have h1 : updateFirst (fun r => decide (r.id = rid)) (setOptBounds nl nu) (r :: rs) =
          r :: updateFirst (fun r => decide (r.id = rid)) (setOptBounds nl nu) rs := by
        simp [updateFirst, hp]
      rw [h1]
      have h2 : ∀ tl, updateFirst (fun r => decide (r.id = rid))
          (setOptBounds (some ((Option.map Reaction.lowerBound (List.find? (fun r => decide (r.id = rid)) rs)).getD 0))
            (some ((Option.map Reaction.upperBound (List.find? (fun r => decide (r.id = rid)) rs)).getD 0)))
          (r :: tl) =
          r :: updateFirst (fun r => decide (r.id = rid))
            (setOptBounds (some ((Option.map Reaction.lowerBound (List.find? (fun r => decide (r.id = rid)) rs)).getD 0))
              (some ((Option.map Reaction.upperBound (List.find? (fun r => decide (r.id = rid)) rs)).getD 0))) tl := by
        intro tl
        simp [updateFirst, hp]
      rw [h2]
      exact congrArg (r :: ·) ih

theorem runUndo_applyOp (mdl : Model) (op : BoundOp) :
    (mdl.applyOp op).1.runUndo (mdl.applyOp op).2 = mdl := by
  cases op with
  | changeBounds rid nl nu =>
    cases mdl with
    | mk rs ms =>
      simp only [Model.applyOp, Model.runUndo, Model.findReaction]
      exact congrArg (fun l => Model.mk l ms) (updateFirst_restoreBounds_cancel _ nl nu rs)
  | addReaction r =>
    cases mdl with
    | mk rs ms =>
      simp [Model.applyOp, Model.runUndo]

theorem rollback_applyOps (mdl : Model) (ops : List BoundOp) :
    (mdl.applyOps ops).1.rollback (mdl.applyOps ops).2 = mdl := by
  induction ops generalizing mdl with
  | nil => rfl
  | cons op ops ih =>
    simp only [Model.applyOps, Model.rollback, List.foldl_append, List.foldl_cons, List.foldl_nil]
    have h1 := ih (mdl.applyOp op).1
    simp only [Model.rollback] at h1
    rw [h1]
    exact runUndo_applyOp mdl op

/-- Python `s[:-2]`: a string with its final two characters removed.  Every
manipulation function derives the species id of a metabolite this way. -/
def speciesId (s : String) : String := ⟨s.data.dropLast.dropLast⟩

/-- The exchange-reaction name `"EX_%s_e" % species_id` used to look up an
existing accumulation exchange. -/
def accumulationExchangeId (met : Metabolite) : String :=
  "EX_" ++ speciesId met.id ++ "_e"

/-- The demand exchange created by cameo `model.add_exchange(metabolite,
prefix=pfx, demand=True)`: a fresh reaction named `pfx + metabolite.id`
consuming one unit of the metabolite, bounds (0, 1000). -/
def mkDemandExchange (pfx : String) (met : Metabolite) : Reaction :=
  ⟨pfx ++ met.id, 0, 1000, [(met, -1)]⟩

/-- The reactions the knockout/inhibit loops iterate over: the metabolite's
reactions, restricted to single-compartment ones when `ignore_transport`. -/
def relevantReactions (mdl : Model) (met : Metabolite) (ignoreTransport : Bool) :
    List Reaction :=
  if ignoreTransport then (mdl.metaboliteReactions met).filter Reaction.singleCompartment
  else mdl.metaboliteReactions met

/-- The knockout loop body for one reaction: skip exchanges, zero both bounds
of a reversible reaction, zero the upper bound of an irreversible reaction
with negative coefficient, leave the rest untouched. -/
def knockoutOpFor (met : Metabolite) (r : Reaction) : Option BoundOp :=
  if r.isExchange then none
  else if r.reversibility then some (.changeBounds r.id (some 0) (some 0))
  else if r.coefficient met < 0 then some (.changeBounds r.id none (some 0))
  else none

/-- The bound-change phase of `knockout_metabolite`
(`marsi/cobra/flux_analysis/manipulation.py`, lines 387-401, identical in
`marsi/processing/models.py` lines 428-443). -/
def knockoutOps (mdl : Model) (met : Metabolite) (ignoreTransport : Bool) :
    List BoundOp :=
  (relevantReactions mdl met ignoreTransport).filterMap (knockoutOpFor met)

/-- `knockout_metabolite(model, metabolite, ignore_transport,
allow_accumulation, time_machine)`: run the bound-change phase inside the
TimeMachine, then, if accumulation is allowed, return the existing
`"EX_<species>_e"` reaction or add (and return) a fresh `"KO_"`-prefixed
demand exchange.  Returns (mutated model, undo stack, returned exchange). -/
def knockout_metabolite (mdl : Model) (met : Metabolite)
    (ignoreTransport allowAccumulation : Bool) :
    Model × List UndoAction × Option Reaction :=
  let ops := knockoutOps mdl met ignoreTransport
  if allowAccumulation then
    if mdl.hasReaction (accumulationExchangeId met) then
      let s := mdl.applyOps ops
      (s.1, s.2, s.1.findReaction (accumulationExchangeId met))
    else
      let ex := mkDemandExchange ("KO_") met
      let s := mdl.applyOps (ops ++ [.addReaction ex])
      (s.1, s.2, some ex)
  else
    let s := mdl.applyOps ops
    (s.1, s.2, none)

/-- Claim C3: applying `knockout_metabolite` inside a scoped modification
context and then exiting the scope (rolling back the recorded undo actions,
most recent first) restores the model exactly: every mutated reaction's
bounds return to their pre-call values and the added exchange reaction, if
any, is removed. -/
theorem C3_knockout_scope_exit_is_identity (mdl : Model) (met : Metabolite)
    (ignoreTransport allowAccumulation : Bool) :
    ((knockout_metabolite mdl met ignoreTransport allowAccumulation).1).rollback
      (knockout_metabolite mdl met ignoreTransport allowAccumulation).2.1 = mdl := by
  unfold knockout_metabolite
  by_cases ha : allowAccumulation
  · by_cases he : mdl.hasReaction (accumulationExchangeId met)
    · simp only [ha, he, if_pos]
      exact rollback_applyOps mdl _
    · simp only [ha, he, if_pos, if_neg, Bool.false_eq_true, not_false_iff]
      exact rollback_applyOps mdl _
  · simp only [ha, if_neg, Bool.false_eq_true, not_false_iff]
    exact rollback_applyOps mdl _

theorem reaction_eq_of_ids {l : List Reaction} (hnd : (l.map Reaction.id).Nodup)
    {x y : Reaction} (hx : x ∈ l) (hy : y ∈ l) (h : x.id = y.id) : x = y := by
  induction l with
  | nil => cases hx
  | cons a as ih =>
    rw [List.map_cons, List.nodup_cons] at hnd
    cases hx with
    | head =>
      cases hy with
      | head => rfl
      | tail _ hy' =>
        exact absurd (h ▸ List.mem_map_of_mem Reaction.id hy') hnd.1
    | tail _ hx' =>
      cases hy with
      | head =>
        exact absurd (h ▸ List.mem_map_of_mem Reaction.id hx') hnd.1
      | tail _ hy' => exact ih hnd.2 hx' hy'

theorem find?_of_nodup_mem {l : List Reaction} (hnd : (l.map Reaction.id).Nodup)
    {r : Reaction} (hr : r ∈ l) :
    l.find? (fun x => decide (x.id = r.id)) = some r := by
  induction l with
  | nil => cases hr
  | cons a as ih =>
    rw [List.map_cons, List.nodup_cons] at hnd
    by_cases ha : a.id = r.id
    · have : a = r := by
        cases hr with
        | head => rfl
        | tail _ hr' =>
          exact absurd (ha ▸ List.mem_map_of_mem Reaction.id hr') hnd.1
      rw [this]
      exact List.find?_cons_of_pos _ (by simp)
    · have hr' : r ∈ as := by
        cases hr with
        | head => exact absurd rfl ha
        | tail _ h => exact h
      rw [List.find?_cons_of_neg _ (by simpa using ha)]
      exact ih hnd.2 hr'

theorem find?_updateFirst_self (p : Reaction → Bool) (f : Reaction → Reaction)
    {l : List Reaction} {r : Reaction} (hfind : l.find? p = some r)
    (hpf : p (f r) = true) :
    (updateFirst p f l).find? p = some (f r) := by
  induction l with
  | nil => cases hfind
  | cons a as ih =>
    by_cases hp : p a = true
    · rw [List.find?_cons_of_pos _ hp] at hfind
      cases hfind
      have h1 : updateFirst p f (r :: as) = f r :: as := by simp [updateFirst, hp]
      rw [h1]
      exact List.find?_cons_of_pos _ hpf
    · rw [List.find?_cons_of_neg _ hp] at hfind
      have h1 : updateFirst p f (a :: as) = a :: updateFirst p f as := by
        simp [updateFirst, hp]
      rw [h1, List.find?_cons_of_neg _ hp]
      exact ih hfind

theorem find?_updateFirst_other (p q : Reaction → Bool) (f : Reaction → Reaction)
    (hq : ∀ x, p x = true → q x = false ∧ q (f x) = false) :
    ∀ l : List Reaction, (updateFirst p f l).find? q = l.find? q := by
  intro l
  induction l with
  | nil => rfl
  | cons a as ih =>
    by_cases hp : p a = true
    · have h1 : updateFirst p f (a :: as) = f a :: as := by simp [updateFirst, hp]
      rw [h1]
      rw [List.find?_cons_of_neg _ (by simp [(hq a hp).2]),
          List.find?_cons_of_neg _ (by simp [(hq a hp).1])]
    · have h1 : updateFirst p f (a :: as) = a :: updateFirst p f as := by
        simp [updateFirst, hp]
      rw [h1]
      by_cases hqa : q a = true
      · rw [List.find?_cons_of_pos _ hqa, List.find?_cons_of_pos _ hqa]
      · rw [List.find?_cons_of_neg _ hqa, List.find?_cons_of_neg _ hqa]
        exact ih

theorem findReaction_applyOp_other (mdl : Model) (rid2 rid : String)
    (nl nu : Option ℚ) (h : rid2 ≠ rid) :
    ((mdl.applyOp (.changeBounds rid2 nl nu)).1).findReaction rid =
      mdl.findReaction rid := by
  simp only [Model.applyOp, Model.findReaction]
  exact find?_updateFirst_other _ _ _
    (fun x hx => by
      have hx' : x.id = rid2 := by simpa using hx
      constructor
      · simp [hx', h]
      · simp [setOptBounds, hx', h]) mdl.reactions

theorem findReaction_applyOps_frame (ops : List BoundOp) :
    ∀ (mdl : Model) (rid : String) (y : Reaction),
    (∀ rid2 nl nu, BoundOp.changeBounds rid2 nl nu ∈ ops → rid2 ≠ rid) →
    mdl.findReaction rid = some y →
    ((mdl.applyOps ops).1).findReaction rid = some y := by
  induction ops with
  | nil => intro mdl rid y _ hf; exact hf
  | cons op ops ih =>
    intro mdl rid y hno hf
    have hstep : ((mdl.applyOp op).1).findReaction rid = some y := by
      cases op with
      | changeBounds rid2 nl nu =>
        rw [findReaction_applyOp_other mdl rid2 rid nl nu
          (hno rid2 nl nu (List.mem_cons_self _ _))]
        exact hf
      | addReaction ex =>
        simp only [Model.applyOp, Model.findReaction] at hf ⊢
        rw [List.find?_append, hf]
        rfl
    exact ih (mdl.applyOp op).1 rid y
      (fun rid2 nl nu hmem => hno rid2 nl nu (List.mem_cons_of_mem _ hmem)) hstep

theorem applyOps_append_model (ops1 ops2 : List BoundOp) :
    ∀ mdl : Model,
      (mdl.applyOps (ops1 ++ ops2)).1 = ((mdl.applyOps ops1).1.applyOps ops2).1 := by
  induction ops1 with
  | nil => intro mdl; rfl
  | cons op ops ih =>
    intro mdl
    simp only [List.cons_append, Model.applyOps]
    exact ih (mdl.applyOp op).1

theorem findReaction_applyOp_self (mdl : Model) (rid : String) (nl nu : Option ℚ)
    (r : Reaction) (hf : mdl.findReaction rid = some r) :
    ((mdl.applyOp (.changeBounds rid nl nu)).1).findReaction rid =
      some (setOptBounds nl nu r) := by
  simp only [Model.findReaction] at hf
  have hpr := List.find?_some hf
  simp only [Model.applyOp, Model.findReaction]
  exact find?_updateFirst_self _ _ hf hpr

theorem knockoutOpFor_shape (met : Metabolite) (x : Reaction) (op : BoundOp)
    (h : knockoutOpFor met x = some op) :
    ∃ nl nu, op = .changeBounds x.id nl nu := by
  unfold knockoutOpFor at h
  by_cases h1 : x.isExchange = true
  · simp [h1] at h
  · by_cases h2 : x.reversibility = true
    · simp [h1, h2] at h
      exact ⟨some 0, some 0, h.symm⟩
    · by_cases h3 : x.coefficient met < 0
      · simp [h1, h2, h3] at h
        exact ⟨none, some 0, h.symm⟩
      · simp [h1, h2, h3] at h

theorem mem_relevantReactions (mdl : Model) (met : Metabolite) (it : Bool)
    (r : Reaction) :
    r ∈ relevantReactions mdl met it ↔
      r ∈ mdl.reactions ∧ r.touches met = true ∧ (it = true → r.singleCompartment = true) := by
  unfold relevantReactions Model.metaboliteReactions
  by_cases hit : it = true
  · simp only [hit, if_pos, List.mem_filter]
    constructor
    · intro h
      exact ⟨h.1.1, h.1.2, fun _ => h.2⟩
    · intro h
      exact ⟨⟨h.1, h.2.1⟩, h.2.2 trivial⟩
  · rw [if_neg hit]
    simp only [List.mem_filter]
    constructor
    · intro h
      exact ⟨h.1, h.2, fun hf => absurd hf hit⟩
    · intro h
      exact ⟨h.1, h.2.1⟩

theorem relevantReactions_ids_nodup (mdl : Model) (met : Metabolite) (it : Bool)
    (hnd : (mdl.reactions.map Reaction.id).Nodup) :
    ((relevantReactions mdl met it).map Reaction.id).Nodup := by
  have hsub : (relevantReactions mdl met it).Sublist mdl.reactions := by
    unfold relevantReactions Model.metaboliteReactions
    by_cases hit : it = true
    · simp only [hit, if_pos]
      exact (List.filter_sublist _).trans (List.filter_sublist _)
    · have : it = false := by
        cases it
        · rfl
        · exact absurd rfl hit
      simp only [this, Bool.false_eq_true, if_neg, not_false_iff]
      exact List.filter_sublist _
  exact (hsub.map Reaction.id).nodup hnd

theorem findReaction_after_knockoutOps (mdl : Model) (met : Metabolite) (it : Bool)
    (r : Reaction) (hnd : (mdl.reactions.map Reaction.id).Nodup)
    (hr : r ∈ mdl.reactions) :
    ((mdl.applyOps (knockoutOps mdl met it)).1).findReaction r.id =
      some (if r.touches met && (!it || r.singleCompartment) && !r.isExchange then
              (if r.reversibility then { r with lowerBound := 0, upperBound := 0 }
               else if r.coefficient met < 0 then { r with upperBound := 0 }
               else r)
            else r) := by
  have hf0 : mdl.findReaction r.id = some r := find?_of_nodup_mem hnd hr
  have hLnd := relevantReactions_ids_nodup mdl met it hnd
  by_cases hmem : r ∈ relevantReactions mdl met it
  · -- the loop visits r exactly once
    obtain ⟨pre, post, hsplit⟩ := List.append_of_mem hmem
    have hnd2 : ((pre ++ r :: post).map Reaction.id).Nodup := hsplit ▸ hLnd
    rw [List.map_append, List.nodup_append] at hnd2
    have hpre : ∀ x ∈ pre, x.id ≠ r.id := by
      intro x hx hxe
      apply hnd2.2.2 (List.mem_map_of_mem Reaction.id hx)
      rw [hxe, List.map_cons]
      exact List.mem_cons_self _ _
    have hpost : ∀ x ∈ post, x.id ≠ r.id := by
      intro x hx hxe
      have h := hnd2.2.1
      rw [List.map_cons, List.nodup_cons] at h
      apply h.1
      rw [← hxe]
      exact List.mem_map_of_mem Reaction.id hx
    have hrel : r.touches met = true ∧ (it = true → r.singleCompartment = true) :=
      ((mem_relevantReactions mdl met it r).mp hmem).2
    have hcond : (r.touches met && (!it || r.singleCompartment)) = true := by
      rw [Bool.and_eq_true]
      refine ⟨hrel.1, ?_⟩
      cases it with
      | false => rfl
      | true => simp [hrel.2 rfl]
    rw [knockoutOps, hsplit, List.filterMap_append, List.filterMap_cons]
    cases hop : knockoutOpFor met r with
    | none =>
      -- r contributes no op: nothing in the list targets r.id
      rw [applyOps_append_model]
      have h1 : ((mdl.applyOps (List.filterMap (knockoutOpFor met) pre)).1).findReaction r.id = some r := by
        refine findReaction_applyOps_frame _ mdl r.id r ?_ hf0
        intro rid2 nl nu hmemop
        obtain ⟨x, hx, hxop⟩ := List.mem_filterMap.mp hmemop
        obtain ⟨nl', nu', hshape⟩ := knockoutOpFor_shape met x _ hxop
        cases hshape
        exact hpre x hx
      have h2 := findReaction_applyOps_frame (List.filterMap (knockoutOpFor met) post)
        (mdl.applyOps (List.filterMap (knockoutOpFor met) pre)).1 r.id r
        (by
          intro rid2 nl nu hmemop
          obtain ⟨x, hx, hxop⟩ := List.mem_filterMap.mp hmemop
          obtain ⟨nl', nu', hshape⟩ := knockoutOpFor_shape met x _ hxop
          cases hshape
          exact hpost x hx) h1
      rw [h2]
      -- the rhs must also be r: knockoutOpFor met r = none under the relevant cond
      unfold knockoutOpFor at hop
      by_cases hex : r.isExchange = true
      · simp [hcond, hex]
      · by_cases hrev : r.reversibility = true
        · simp [hex, hrev] at hop
        · by_cases hco : r.coefficient met < 0
          · simp [hex, hrev, hco] at hop
          · simp [hcond, hex, hrev, hco]
    | some op =>
      obtain ⟨nl, nu, hshape⟩ := knockoutOpFor_shape met r _ hop
      cases hshape
      rw [applyOps_append_model]
      have h1 : ((mdl.applyOps (List.filterMap (knockoutOpFor met) pre)).1).findReaction r.id = some r := by
        refine findReaction_applyOps_frame _ mdl r.id r ?_ hf0
        intro rid2 nl' nu' hmemop
        obtain ⟨x, hx, hxop⟩ := List.mem_filterMap.mp hmemop
        obtain ⟨nl'', nu'', hshape'⟩ := knockoutOpFor_shape met x _ hxop
        cases hshape'
        exact hpre x hx
      simp only [Model.applyOps]
      have h2 := findReaction_applyOp_self
        (mdl.applyOps (List.filterMap (knockoutOpFor met) pre)).1 r.id nl nu r h1
      have h3 := findReaction_applyOps_frame (List.filterMap (knockoutOpFor met) post)
        ((mdl.applyOps (List.filterMap (knockoutOpFor met) pre)).1.applyOp
          (.changeBounds r.id nl nu)).1 r.id (setOptBounds nl nu r)
        (by
          intro rid2 nl' nu' hmemop
          obtain ⟨x, hx, hxop⟩ := List.mem_filterMap.mp hmemop
          obtain ⟨nl'', nu'', hshape'⟩ := knockoutOpFor_shape met x _ hxop
          cases hshape'
          exact hpost x hx) h2
      rw [h3]
      -- identify the recorded bounds with the claim's case split
      unfold knockoutOpFor at hop
      by_cases hex : r.isExchange = true
      · simp [hex] at hop
      · by_cases hrev : r.reversibility = true
        · simp only [hex, Bool.false_eq_true, if_neg, not_false_iff, hrev, if_pos] at hop
          cases hop
          simp [hcond, hex, hrev, setOptBounds]
        · by_cases hco : r.coefficient met < 0
          · simp only [hex, Bool.false_eq_true, if_neg, not_false_iff, hrev, hco, if_pos] at hop
            cases hop
            simp [hcond, hex, hrev, hco, setOptBounds]
          · simp [hex, hrev, hco] at hop
  · -- r is not visited by the loop: no op targets it
    have h1 : ((mdl.applyOps (knockoutOps mdl met it)).1).findReaction r.id = some r := by
      refine findReaction_applyOps_frame _ mdl r.id r ?_ hf0
      intro rid2 nl nu hmemop
      obtain ⟨x, hx, hxop⟩ := List.mem_filterMap.mp hmemop
      obtain ⟨nl', nu', hshape⟩ := knockoutOpFor_shape met x _ hxop
      cases hshape
      intro hxe
      have hxr : x = r := reaction_eq_of_ids hnd
        (((mem_relevantReactions mdl met it x).mp hx).1) hr hxe
      exact hmem (hxr ▸ hx)
    rw [h1]
    have hcond : (r.touches met && (!it || r.singleCompartment) && !r.isExchange) = false := by
      by_cases ht : r.touches met = true
      · by_cases hsc : (!it || r.singleCompartment) = true
        · exfalso
          apply hmem
          rw [mem_relevantReactions]
          refine ⟨hr, ht, ?_⟩
          intro hit
          rw [hit] at hsc
          simpa using hsc
        · simp [ht, Bool.eq_false_iff.mpr hsc]
      · simp [Bool.eq_false_iff.mpr ht]
    rw [hcond]
    simp

/-- Claim C4: `knockout_metabolite` forces flux to zero on exactly the
reactions touching the metabolite that are not exchanges (and not transport
reactions when `ignore_transport`): reversible reactions get both bounds 0,
irreversible reactions consuming the metabolite (negative coefficient) get
upper bound 0, and every other reaction of the model keeps its bounds. -/
theorem C4_knockout_effect (mdl : Model) (met : Metabolite)
    (it aa : Bool) (r : Reaction)
    (hnd : (mdl.reactions.map Reaction.id).Nodup)
    (hr : r ∈ mdl.reactions) :
    ((knockout_metabolite mdl met it aa).1).findReaction r.id =
      some (if r.touches met && (!it || r.singleCompartment) && !r.isExchange then
              (if r.reversibility then { r with lowerBound := 0, upperBound := 0 }
               else if r.coefficient met < 0 then { r with upperBound := 0 }
               else r)
            else r) := by
  have hmain := findReaction_after_knockoutOps mdl met it r hnd hr
  unfold knockout_metabolite
  by_cases ha : aa = true
  · by_cases he : mdl.hasReaction (accumulationExchangeId met) = true
    · simp only [ha, he, if_pos]
      exact hmain
    · simp only [ha, he, if_pos, Bool.false_eq_true, if_neg, not_false_iff]
      rw [applyOps_append_model]
      refine findReaction_applyOps_frame _ _ r.id _ ?_ hmain
      intro rid2 nl nu hmemop
      simp at hmemop
  · have ha' : aa = false := by
      cases aa
      · rfl
      · exact absurd rfl ha
    simp only [ha', Bool.false_eq_true, if_neg, not_false_iff]
    exact hmain

/-- `search_metabolites(model, species_id)`
(`marsi/processing/models.py` lines 144-145):
`model.metabolites.query(lambda mid: mid[:-2] == species_id, attribute="id")`. -/
def search_metabolites (mdl : Model) (species : String) : List Metabolite :=
  mdl.metabolites.filter fun m => decide (speciesId m.id = species)

theorem ids_updateFirst (rid : String) (nl nu : Option ℚ) (l : List Reaction) :
    (updateFirst (fun r => decide (r.id = rid)) (setOptBounds nl nu) l).map Reaction.id =
      l.map Reaction.id := by
  induction l with
  | nil => rfl
  | cons a as ih =>
    by_cases hp : (fun r : Reaction => decide (r.id = rid)) a = true
    · simp [updateFirst, hp, setOptBounds]
    · simp only [updateFirst, hp, Bool.false_eq_true, if_neg, not_false_iff, List.map_cons]
      rw [ih]

theorem ids_applyOps_changeBounds (ops : List BoundOp)
    (hcb : ∀ op ∈ ops, ∀ r0 : Reaction, op ≠ .addReaction r0) :
    ∀ mdl : Model, ((mdl.applyOps ops).1).reactions.map Reaction.id =
      mdl.reactions.map Reaction.id := by
  induction ops with
  | nil => intro mdl; rfl
  | cons op ops ih =>
    intro mdl
    have hstep : ((mdl.applyOp op).1).reactions.map Reaction.id = mdl.reactions.map Reaction.id := by
      cases op with
      | changeBounds rid nl nu => exact ids_updateFirst rid nl nu mdl.reactions
      | addReaction r0 => exact absurd rfl (hcb _ (List.mem_cons_self _ _) r0)
    rw [Model.applyOps]
    rw [ih (fun op' hm r0 => hcb op' (List.mem_cons_of_mem _ hm) r0) (mdl.applyOp op).1, hstep]

theorem hasReaction_iff_mem_ids (mdl : Model) (rid : String) :
    mdl.hasReaction rid = true ↔ rid ∈ mdl.reactions.map Reaction.id := by
  unfold Model.hasReaction
  rw [List.any_eq_true]
  constructor
  · rintro ⟨x, hx, hxe⟩
    have : x.id = rid := of_decide_eq_true hxe
    exact this ▸ List.mem_map_of_mem Reaction.id hx
  · intro h
    obtain ⟨x, hx, hxe⟩ := List.mem_map.mp h
    exact ⟨x, hx, decide_eq_true (by rw [hxe])⟩

theorem knockoutOps_no_add (mdl : Model) (met : Metabolite) (it : Bool) :
    ∀ op ∈ knockoutOps mdl met it, ∀ r0 : Reaction, op ≠ .addReaction r0 := by
  intro op hop r0
  obtain ⟨x, _, hxop⟩ := List.mem_filterMap.mp hop
  obtain ⟨nl, nu, hshape⟩ := knockoutOpFor_shape met x _ hxop
  rw [hshape]
  intro h
  cases h

/-- Claim C10: species resolution assumes a two-character compartment suffix.
`search_metabolites(model, s)` returns exactly the metabolites whose id minus
its last two characters equals `s` (so ids with a differently-sized suffix are
never resolved); the manipulation functions derive the species id of a
metabolite by dropping its final two characters and key the accumulation
exchange lookup on `"EX_<species>_e"`, returning the reaction of that id when
it exists and otherwise creating a fresh `"KO_<metabolite id>"` demand
exchange. -/
theorem C10_species_resolution (mdl : Model) (s : String) (met : Metabolite)
    (it : Bool) :
    (∀ m, m ∈ search_metabolites mdl s ↔ m ∈ mdl.metabolites ∧ speciesId m.id = s) ∧
    (accumulationExchangeId met = "EX_" ++ speciesId met.id ++ "_e") ∧
    (mdl.hasReaction (accumulationExchangeId met) = true →
      ∃ rx, (knockout_metabolite mdl met it true).2.2 = some rx ∧
        rx.id = accumulationExchangeId met) ∧
    (mdl.hasReaction (accumulationExchangeId met) = false →
      (knockout_metabolite mdl met it true).2.2 = some (mkDemandExchange ("KO_") met)) := by
  refine ⟨?_, rfl, ?_, ?_⟩
  · intro m
    unfold search_metabolites
    rw [List.mem_filter]
    constructor
    · intro h
      exact ⟨h.1, of_decide_eq_true h.2⟩
    · intro h
      exact ⟨h.1, decide_eq_true h.2⟩
  · intro hex
    unfold knockout_metabolite
    simp only [hex, if_pos]
    have hids := ids_applyOps_changeBounds (knockoutOps mdl met it)
      (knockoutOps_no_add mdl met it) mdl
    have hmem : accumulationExchangeId met ∈
        ((mdl.applyOps (knockoutOps mdl met it)).1).reactions.map Reaction.id := by
      rw [hids]
      exact (hasReaction_iff_mem_ids mdl _).mp hex
    obtain ⟨x, hx, hxe⟩ := List.mem_map.mp hmem
    have hsome : ∃ rx, ((mdl.applyOps (knockoutOps mdl met it)).1).findReaction
        (accumulationExchangeId met) = some rx := by
      unfold Model.findReaction
      have : (List.find? (fun r => decide (r.id = accumulationExchangeId met))
          ((mdl.applyOps (knockoutOps mdl met it)).1).reactions).isSome := by
        rw [List.find?_isSome]
        exact ⟨x, hx, decide_eq_true hxe⟩
      obtain ⟨rx, hrx⟩ := Option.isSome_iff_exists.mp this
      exact ⟨rx, hrx⟩
    obtain ⟨rx, hrx⟩ := hsome
    refine ⟨rx, ?_, ?_⟩
    · simp [hrx]
    · have := List.find?_some (by simpa [Model.findReaction] using hrx)
      exact of_decide_eq_true this
  · intro hex
    unfold knockout_metabolite
    simp [hex]

/- Concrete fixture: a small model used by the witnesses below. -/

def metAtp : Metabolite := ⟨"atp_c", "c"⟩

def metAdp : Metabolite := ⟨"adp_c", "c"⟩

def metAtpExt : Metabolite := ⟨"atp_e", "e"⟩

def metGlcExt : Metabolite := ⟨"glc_e", "e"⟩

/-- A reversible reaction consuming atp_c (single compartment). -/
def rxnHydrolysis : Reaction := ⟨"HYDR", -10, 10, [(metAtp, -1), (metAdp, 1)]⟩

/-- An irreversible reaction producing atp_c. -/
def rxnSynthesis : Reaction := ⟨"SYNT", 0, 10, [(metAdp, -1), (metAtp, 1)]⟩

/-- An irreversible reaction consuming atp_c. -/
def rxnUse : Reaction := ⟨"USE", 0, 10, [(metAtp, -1), (metAdp, 1)]⟩

/-- A transport reaction moving atp between compartments. -/
def rxnTransport : Reaction := ⟨"TRANS", -5, 5, [(metAtp, -1), (metAtpExt, 1)]⟩

/-- An exchange reaction (single metabolite). -/
def rxnExchange : Reaction := ⟨"EX_glc_e", -10, 0, [(metGlcExt, -1)]⟩

def exModel : Model :=
  ⟨[rxnHydrolysis, rxnSynthesis, rxnUse, rxnTransport, rxnExchange],
   [metAtp, metAdp, metAtpExt, metGlcExt]⟩

theorem C4_knockout_effect_witness :
    ((exModel.reactions.map Reaction.id).Nodup ∧ rxnHydrolysis ∈ exModel.reactions) ∧
    ((knockout_metabolite exModel metAtp true true).1).findReaction (rxnHydrolysis.id) =
      some { rxnHydrolysis with lowerBound := 0, upperBound := 0 } := by
  refine ⟨⟨by decide, by decide⟩, ?_⟩
  have h := C4_knockout_effect exModel metAtp true true rxnHydrolysis (by decide) (by decide)
  exact h.trans (by decide)

theorem C10_species_resolution_witness :
    (metAtp ∈ search_metabolites exModel ("atp") ∧
     exModel.hasReaction (accumulationExchangeId metAtp) = false ∧
     (knockout_metabolite exModel metAtp true true).2.2 =
       some (mkDemandExchange ("KO_") metAtp)) := by
  refine ⟨?_, by decide, ?_⟩
  · exact ((C10_species_resolution exModel ("atp") metAtp true).1 metAtp).mpr
      ⟨by decide, by decide⟩
  · exact (C10_species_resolution exModel ("atp") metAtp true).2.2.2 (by decide)

/-- The `fraction` argument of the processing-layer `inhibit_metabolite`:
one float applied uniformly, or a per-reaction mapping. -/
inductive FractionArg
  | uniform (q : ℚ)
  | perReaction (m : List (String × ℚ))
deriving DecidableEq

/-- Errors the manipulation functions can raise: the `ValueError` naming the
reactions missing from a per-reaction fraction mapping, and the `KeyError`
from `reference_dist[reaction.id]` when a reaction is absent from the
reference flux distribution. -/
inductive ManipulationError
  | uncoveredReactions (rids : List String)
  | missingReference (rid : String)
deriving DecidableEq

/-- Association-list lookup (Python dict access / `.get`). -/
def lookupQ (m : List (String × ℚ)) (k : String) : Option ℚ :=
  (m.find? fun p => decide (p.1 = k)).map Prod.snd

/-- The numeric tolerance `1e-6` (the rational 1/1000000, given in normal
form so that comparisons against it compute) used by the bound-tightening
code. -/
def fluxTol : ℚ := ⟨1, 1000000, by norm_num, by norm_num⟩

/-- The per-reaction body of the processing-layer `inhibit_metabolite`
(`marsi/processing/models.py` lines 389-403): skip exchanges; a reaction
consuming the metabolite (coefficient < 0) gets upper bound
`reference * fraction` when the reference flux exceeds the tolerance and 0
otherwise; a producing reaction (coefficient > 0) gets lower bound
`reference * fraction` when the reference flux is below minus the tolerance
and 0 otherwise.  A reaction absent from the reference raises `KeyError`. -/
def inhibitOpFor (met : Metabolite) (refDist fracMap : List (String × ℚ))
    (r : Reaction) : Except ManipulationError (Option BoundOp) :=
  if r.isExchange then .ok none
  else if r.coefficient met < 0 then
    match lookupQ refDist r.id with
    | none => .error (.missingReference r.id)
    | some f =>
      if f > fluxTol then
        .ok (some (.changeBounds r.id none (some (f * (lookupQ fracMap r.id).getD 0))))
      else .ok (some (.changeBounds r.id none (some 0)))
  else if 0 < r.coefficient met then
    match lookupQ refDist r.id with
    | none => .error (.missingReference r.id)
    | some f =>
      if f < -fluxTol then
        .ok (some (.changeBounds r.id (some (f * (lookupQ fracMap r.id).getD 0)) none))
      else .ok (some (.changeBounds r.id (some 0) none))
  else .ok none

/-- The inhibit loop over the metabolite's (transport-filtered) reactions,
collecting the bound changes in loop order; the first `KeyError` aborts. -/
def inhibitOpsLoop (met : Metabolite) (refDist fracMap : List (String × ℚ)) :
    List Reaction → Except ManipulationError (List BoundOp)
  | [] => .ok []
  | r :: rs =>
    match inhibitOpFor met refDist fracMap r with
    | .error e => .error e
    | .ok none => inhibitOpsLoop met refDist fracMap rs
    | .ok (some op) =>
      match inhibitOpsLoop met refDist fracMap rs with
      | .error e => .error e
      | .ok ops => .ok (op :: ops)

/-- The fraction mapping the call works with: a float is expanded to a
mapping covering all (transport-filtered) reactions of the metabolite. -/
def inhibitFracMap (mdl : Model) (met : Metabolite) (it : Bool)
    (frac : FractionArg) : List (String × ℚ) :=
  match frac with
  | .uniform q => (relevantReactions mdl met it).map fun r => (r.id, q)
  | .perReaction m => m

/-- The reactions not covered by the fraction mapping (the fail-fast check of
`inhibit_metabolite`, performed before any bound is modified). -/
def inhibitMissing (mdl : Model) (met : Metabolite) (it : Bool)
    (frac : FractionArg) : List Reaction :=
  (relevantReactions mdl met it).filter fun r =>
    (lookupQ (inhibitFracMap mdl met it frac) r.id).isNone

/-- `inhibit_metabolite(metabolite, reference_dist, fraction,
ignore_transport, allow_accumulation, time_machine)`
(`marsi/processing/models.py` lines 343-410).  On the error paths the Python
function raises (any bound changes already applied are reverted by the
enclosing TimeMachine scope); the embedding surfaces the error as `.error`. -/
def inhibit_metabolite (mdl : Model) (met : Metabolite)
    (refDist : List (String × ℚ)) (frac : FractionArg)
    (it allowAccumulation : Bool) :
    Except ManipulationError (Model × List UndoAction × Option Reaction) :=
  if (inhibitMissing mdl met it frac).isEmpty = false then
    .error (.uncoveredReactions ((inhibitMissing mdl met it frac).map Reaction.id))
  else
    match inhibitOpsLoop met refDist (inhibitFracMap mdl met it frac)
        (relevantReactions mdl met it) with
    | .error e => .error e
    | .ok ops =>
      if allowAccumulation then
        if mdl.hasReaction (accumulationExchangeId met) then
          let s := mdl.applyOps ops
          .ok (s.1, s.2, s.1.findReaction (accumulationExchangeId met))
        else
          let ex := mkDemandExchange ("I_") met
          let t := mdl.applyOps (ops ++ [.addReaction ex])
          .ok (t.1, t.2, some ex)
      else
        let s := mdl.applyOps ops
        .ok (s.1, s.2, none)

theorem inhibitOpFor_shape (met : Metabolite) (refDist fracMap : List (String × ℚ))
    (x : Reaction) (op : BoundOp)
    (h : inhibitOpFor met refDist fracMap x = .ok (some op)) :
    ∃ nl nu, op = .changeBounds x.id nl nu := by
  unfold inhibitOpFor at h
  repeat' split at h
  all_goals cases h
  all_goals exact ⟨_, _, rfl⟩

theorem inhibitOpsLoop_append (met : Metabolite) (refDist fracMap : List (String × ℚ))
    (l1 l2 : List Reaction) :
    inhibitOpsLoop met refDist fracMap (l1 ++ l2) =
      match inhibitOpsLoop met refDist fracMap l1 with
      | .error e => .error e
      | .ok o1 =>
        match inhibitOpsLoop met refDist fracMap l2 with
        | .error e => .error e
        | .ok o2 => .ok (o1 ++ o2) := by
  induction l1 with
  | nil =>
    simp only [List.nil_append, inhibitOpsLoop]
    cases inhibitOpsLoop met refDist fracMap l2 with
    | error e => rfl
    | ok o2 => simp
  | cons r rs ih =>
    simp only [List.cons_append, inhibitOpsLoop]
    cases inhibitOpFor met refDist fracMap r with
    | error e => rfl
    | ok o =>
      cases o with
      | none => exact ih
      | some op =>
        dsimp only
        rw [show rs.append l2 = rs ++ l2 from rfl, ih]
        cases inhibitOpsLoop met refDist fracMap rs with
        | error e => rfl
        | ok o1 =>
          cases inhibitOpsLoop met refDist fracMap l2 with
          | error e => rfl
          | ok o2 => rfl

theorem inhibitOpsLoop_mem_shape (met : Metabolite)
    (refDist fracMap : List (String × ℚ)) :
    ∀ (L : List Reaction) (ops : List BoundOp),
      inhibitOpsLoop met refDist fracMap L = .ok ops →
      ∀ op ∈ ops, ∃ x ∈ L, ∃ nl nu, op = .changeBounds x.id nl nu := by
  intro L
  induction L with
  | nil =>
    intro ops h op hop
    cases h
    cases hop
  | cons r rs ih =>
    intro ops h op hop
    rw [inhibitOpsLoop] at h
    cases hfor : inhibitOpFor met refDist fracMap r with
    | error e => rw [hfor] at h; cases h
    | ok o =>
      rw [hfor] at h
      cases o with
      | none =>
        obtain ⟨x, hx, hshape⟩ := ih ops h op hop
        exact ⟨x, List.mem_cons_of_mem _ hx, hshape⟩
      | some op0 =>
        cases hrest : inhibitOpsLoop met refDist fracMap rs with
        | error e => rw [hrest] at h; cases h
        | ok ops0 =>
          rw [hrest] at h
          cases h
          cases hop with
          | head =>
            obtain ⟨nl, nu, hs⟩ := inhibitOpFor_shape met refDist fracMap r op hfor
            exact ⟨r, List.mem_cons_self _ _, nl, nu, hs⟩
          | tail _ hop' =>
            obtain ⟨x, hx, hshape⟩ := ih ops0 hrest op hop'
            exact ⟨x, List.mem_cons_of_mem _ hx, hshape⟩

theorem inhibit_findReaction (mdl : Model) (met : Metabolite)
    (refDist : List (String × ℚ)) (frac : FractionArg) (it aa : Bool)
    (out : Model × List UndoAction × Option Reaction) (r : Reaction)
    (nl nu : Option ℚ)
    (hnd : (mdl.reactions.map Reaction.id).Nodup)
    (hmem : r ∈ relevantReactions mdl met it)
    (hok : inhibit_metabolite mdl met refDist frac it aa = .ok out)
    (hforR : inhibitOpFor met refDist (inhibitFracMap mdl met it frac) r =
      .ok (some (.changeBounds r.id nl nu))) :
    out.1.findReaction r.id = some (setOptBounds nl nu r) := by
  have hr : r ∈ mdl.reactions := ((mem_relevantReactions mdl met it r).mp hmem).1
  have hf0 : mdl.findReaction r.id = some r := find?_of_nodup_mem hnd hr
  have hLnd := relevantReactions_ids_nodup mdl met it hnd
  obtain ⟨pre, post, hsplit⟩ := List.append_of_mem hmem
  have hnd2 : ((pre ++ r :: post).map Reaction.id).Nodup := hsplit ▸ hLnd
  rw [List.map_append, List.nodup_append] at hnd2
  have hpre : ∀ x ∈ pre, x.id ≠ r.id := by
    intro x hx hxe
    apply hnd2.2.2 (List.mem_map_of_mem Reaction.id hx)
    rw [hxe, List.map_cons]
    exact List.mem_cons_self _ _
  have hpost : ∀ x ∈ post, x.id ≠ r.id := by
    intro x hx hxe
    have h := hnd2.2.1
    rw [List.map_cons, List.nodup_cons] at h
    apply h.1
    rw [← hxe]
    exact List.mem_map_of_mem Reaction.id hx
  unfold inhibit_metabolite at hok
  split at hok
  · cases hok
  · cases hloop : inhibitOpsLoop met refDist (inhibitFracMap mdl met it frac)
        (relevantReactions mdl met it) with
    | error e => rw [hloop] at hok; cases hok
    | ok ops =>
      rw [hloop] at hok
      dsimp only at hok
      have hloop2 := hloop
      rw [hsplit, inhibitOpsLoop_append] at hloop2
      cases hpreL : inhibitOpsLoop met refDist (inhibitFracMap mdl met it frac) pre with
      | error e => rw [hpreL] at hloop2; cases hloop2
      | ok o1 =>
        rw [hpreL] at hloop2
        have hconsL : inhibitOpsLoop met refDist (inhibitFracMap mdl met it frac) (r :: post) =
            match inhibitOpsLoop met refDist (inhibitFracMap mdl met it frac) post with
            | .error e => .error e
            | .ok o2 => .ok ((BoundOp.changeBounds r.id nl nu) :: o2) := by
          rw [inhibitOpsLoop, hforR]
        rw [hconsL] at hloop2
        cases hpostL : inhibitOpsLoop met refDist (inhibitFracMap mdl met it frac) post with
        | error e => rw [hpostL] at hloop2; cases hloop2
        | ok o2 =>
          rw [hpostL] at hloop2
          cases hloop2
          -- the model component after the ops
          have hcore : ((mdl.applyOps (o1 ++ BoundOp.changeBounds r.id nl nu :: o2)).1).findReaction r.id =
              some (setOptBounds nl nu r) := by
            rw [applyOps_append_model]
            have h1 : ((mdl.applyOps o1).1).findReaction r.id = some r := by
              refine findReaction_applyOps_frame _ mdl r.id r ?_ hf0
              intro rid2 nl' nu' hmemop
              obtain ⟨x, hx, nl'', nu'', hshape⟩ :=
                inhibitOpsLoop_mem_shape met refDist _ pre o1 hpreL _ hmemop
              cases hshape
              exact hpre x hx
            simp only [Model.applyOps]
            have h2 := findReaction_applyOp_self (mdl.applyOps o1).1 r.id nl nu r h1
            exact findReaction_applyOps_frame o2 _ r.id (setOptBounds nl nu r)
              (by
                intro rid2 nl' nu' hmemop
                obtain ⟨x, hx, nl'', nu'', hshape⟩ :=
                  inhibitOpsLoop_mem_shape met refDist _ post o2 hpostL _ hmemop
                cases hshape
                exact hpost x hx) h2
          by_cases haa : aa = true
          · rw [if_pos haa] at hok
            by_cases hhas : mdl.hasReaction (accumulationExchangeId met) = true
            · rw [if_pos hhas] at hok
              cases hok
              exact hcore
            · rw [if_neg hhas] at hok
              cases hok
              rw [applyOps_append_model]
              exact findReaction_applyOps_frame _ _ r.id _
                (by intro _ _ _ hmemop; simp at hmemop) hcore
          · rw [if_neg haa] at hok
            cases hok
            exact hcore

theorem lookupQ_uniform (q : ℚ) (rid : String) :
    ∀ L : List Reaction, (∃ x ∈ L, x.id = rid) →
      lookupQ (L.map fun x => (x.id, q)) rid = some q := by
  intro L
  induction L with
  | nil => rintro ⟨x, hx, _⟩; cases hx
  | cons a as ih =>
    rintro ⟨x, hx, hxe⟩
    by_cases ha : a.id = rid
    · unfold lookupQ
      rw [List.map_cons, List.find?_cons_of_pos _ (by simpa using ha)]
      rfl
    · have hx' : x ∈ as := by
        cases hx with
        | head => exact absurd hxe ha
        | tail _ h => exact h
      unfold lookupQ
      rw [List.map_cons, List.find?_cons_of_neg _ (by simpa using ha)]
      exact ih ⟨x, hx', hxe⟩

theorem inhibitMissing_uniform_empty (mdl : Model) (met : Metabolite) (it : Bool)
    (q : ℚ) : inhibitMissing mdl met it (.uniform q) = [] := by
  unfold inhibitMissing
  rw [List.filter_eq_nil_iff]
  intro r hr
  rw [show inhibitFracMap mdl met it (.uniform q) =
    (relevantReactions mdl met it).map fun x => (x.id, q) from rfl]
  rw [lookupQ_uniform q r.id (relevantReactions mdl met it) ⟨r, hr, rfl⟩]
  simp

/-- Claim C5: for a non-transport, non-exchange reaction of the metabolite,
the processing-layer `inhibit_metabolite` tightens the bound on the side
using the metabolite toward `reference * fraction` in the direction of the
sign of the reference flux: a consuming reaction (coefficient < 0) with
reference flux above the 1e-6 tolerance gets upper bound
`reference * fraction` (never above its previous upper bound when the
reference was feasible and the fraction lies in [0,1]); a producing reaction
(coefficient > 0) with reference flux below -1e-6 gets lower bound
`reference * fraction` (never below its previous lower bound); and when the
reference flux is numerically negligible (|flux| < 1e-6) the corresponding
bound is fixed to 0. -/
theorem C5_inhibit_bound_tightening (mdl : Model) (met : Metabolite)
    (refDist : List (String × ℚ)) (q : ℚ) (it aa : Bool)
    (out : Model × List UndoAction × Option Reaction) (r : Reaction) (f : ℚ)
    (hnd : (mdl.reactions.map Reaction.id).Nodup)
    (hmem : r ∈ relevantReactions mdl met it)
    (hex : r.isExchange = false)
    (hok : inhibit_metabolite mdl met refDist (.uniform q) it aa = .ok out)
    (hfl : lookupQ refDist r.id = some f)
    (hq0 : 0 ≤ q) (hq1 : q ≤ 1) :
    (r.coefficient met < 0 → fluxTol < f →
       out.1.findReaction r.id = some { r with upperBound := f * q } ∧
       (f ≤ r.upperBound → f * q ≤ r.upperBound)) ∧
    (0 < r.coefficient met → f < -fluxTol →
       out.1.findReaction r.id = some { r with lowerBound := f * q } ∧
       (r.lowerBound ≤ f → r.lowerBound ≤ f * q)) ∧
    (|f| < fluxTol →
       (r.coefficient met < 0 → out.1.findReaction r.id = some { r with upperBound := 0 }) ∧
       (0 < r.coefficient met → out.1.findReaction r.id = some { r with lowerBound := 0 })) := by
  have hfmq : lookupQ (inhibitFracMap mdl met it (.uniform q)) r.id = some q :=
    lookupQ_uniform q r.id (relevantReactions mdl met it) ⟨r, hmem, rfl⟩
  have hexn : ¬ r.isExchange = true := by rw [hex]; exact Bool.false_ne_true
  refine ⟨?_, ?_, ?_⟩
  · intro hco hf
    have hfor : inhibitOpFor met refDist (inhibitFracMap mdl met it (.uniform q)) r =
        .ok (some (.changeBounds r.id none (some (f * q)))) := by
      unfold inhibitOpFor
      rw [if_neg hexn, if_pos hco, hfl]
      dsimp only
      rw [if_pos hf, hfmq]
      rfl
    constructor
    · have h := inhibit_findReaction mdl met refDist (.uniform q) it aa out r
        none (some (f * q)) hnd hmem hok hfor
      rwa [show setOptBounds none (some (f * q)) r = { r with upperBound := f * q } from rfl] at h
    · intro hub
      have h1 : f * q ≤ f := mul_le_of_le_one_right
        (le_of_lt (lt_trans (by decide) hf)) hq1
      exact le_trans h1 hub
  · intro hco hf
    have hcon : ¬ r.coefficient met < 0 := not_lt.mpr (le_of_lt hco)
    have hfor : inhibitOpFor met refDist (inhibitFracMap mdl met it (.uniform q)) r =
        .ok (some (.changeBounds r.id (some (f * q)) none)) := by
      unfold inhibitOpFor
      rw [if_neg hexn, if_neg hcon, if_pos hco, hfl]
      dsimp only
      rw [if_pos hf, hfmq]
      rfl
    constructor
    · have h := inhibit_findReaction mdl met refDist (.uniform q) it aa out r
        (some (f * q)) none hnd hmem hok hfor
      rwa [show setOptBounds (some (f * q)) none r = { r with lowerBound := f * q } from rfl] at h
    · intro hlb
      have hfneg : f ≤ 0 := le_of_lt (lt_trans hf (by decide))
      have h1 : f * 1 ≤ f * q := mul_le_mul_of_nonpos_left hq1 hfneg
      rw [mul_one] at h1
      exact le_trans hlb h1
  · intro habs
    obtain ⟨habs1, habs2⟩ := abs_lt.mp habs
    constructor
    · intro hco
      have hfor : inhibitOpFor met refDist (inhibitFracMap mdl met it (.uniform q)) r =
          .ok (some (.changeBounds r.id none (some 0))) := by
        unfold inhibitOpFor
        rw [if_neg hexn, if_pos hco, hfl]
        dsimp only
        rw [if_neg (not_lt.mpr (le_of_lt habs2))]
      have h := inhibit_findReaction mdl met refDist (.uniform q) it aa out r
        none (some 0) hnd hmem hok hfor
      rwa [show setOptBounds none (some 0) r = { r with upperBound := 0 } from rfl] at h
    · intro hco
      have hcon : ¬ r.coefficient met < 0 := not_lt.mpr (le_of_lt hco)
      have hfor : inhibitOpFor met refDist (inhibitFracMap mdl met it (.uniform q)) r =
          .ok (some (.changeBounds r.id (some 0) none)) := by
        unfold inhibitOpFor
        rw [if_neg hexn, if_neg hcon, if_pos hco, hfl]
        dsimp only
        rw [if_neg (not_lt.mpr (le_of_lt habs1))]
      have h := inhibit_findReaction mdl met refDist (.uniform q) it aa out r
        (some 0) none hnd hmem hok hfor
      rwa [show setOptBounds (some 0) none r = { r with lowerBound := 0 } from rfl] at h

def c5ref : List (String × ℚ) := [(("HYDR" : String), (5 : ℚ))]

def c5mdl : Model := ⟨[rxnHydrolysis], [metAtp, metAdp]⟩

def c5out : Model × List UndoAction × Option Reaction :=
  (⟨[⟨"HYDR", -10, 5 * (1/2), [(metAtp, -1), (metAdp, 1)]⟩], [metAtp, metAdp]⟩,
   [.restoreBounds ("HYDR") (-10) 10], none)

theorem C5_inhibit_bound_tightening_witness :
    (inhibit_metabolite c5mdl metAtp c5ref (.uniform (1/2)) true false = .ok c5out) ∧
    c5out.1.findReaction (rxnHydrolysis.id) =
      some { rxnHydrolysis with upperBound := 5 * (1/2) } ∧
    5 * ((1:ℚ)/2) ≤ rxnHydrolysis.upperBound := by
  have hok : inhibit_metabolite c5mdl metAtp c5ref (.uniform (1/2)) true false = .ok c5out := by
    rfl
  have h := C5_inhibit_bound_tightening c5mdl metAtp c5ref (1/2) true false c5out
    rxnHydrolysis 5 (by decide) (by decide) (by decide) hok (by decide)
    (by norm_num) (by norm_num)
  have hA := h.1 (by decide) (by decide)
  exact ⟨hok, hA.1, hA.2 (by decide)⟩

theorem inhibitOpFor_error_shape (met : Metabolite)
    (refDist fracMap : List (String × ℚ)) (x : Reaction) (e : ManipulationError)
    (h : inhibitOpFor met refDist fracMap x = .error e) :
    ∃ rid, e = .missingReference rid := by
  unfold inhibitOpFor at h
  repeat' split at h
  all_goals cases h
  all_goals exact ⟨_, rfl⟩

theorem inhibitOpsLoop_error_shape (met : Metabolite)
    (refDist fracMap : List (String × ℚ)) :
    ∀ (L : List Reaction) (e : ManipulationError),
      inhibitOpsLoop met refDist fracMap L = .error e →
      ∃ rid, e = .missingReference rid := by
  intro L
  induction L with
  | nil => intro e h; cases h
  | cons r rs ih =>
    intro e h
    rw [inhibitOpsLoop] at h
    cases hfor : inhibitOpFor met refDist fracMap r with
    | error e0 =>
      rw [hfor] at h
      cases h
      exact inhibitOpFor_error_shape met refDist fracMap r _ hfor
    | ok o =>
      rw [hfor] at h
      cases o with
      | none => exact ih e h
      | some op =>
        cases hrest : inhibitOpsLoop met refDist fracMap rs with
        | error e1 =>
          rw [hrest] at h
          cases h
          exact ih _ hrest
        | ok ops =>
          rw [hrest] at h
          cases h

/-- Claim C8: when `inhibit_metabolite` receives a per-reaction mapping that
does not cover every relevant (non-transport) reaction of the metabolite, it
fails fast — before any bound is modified — with an error naming the
uncovered reactions; when it receives a single float, the float is expanded
to a mapping covering all relevant reactions and the coverage error is
impossible. -/
theorem C8_fraction_mapping_coverage (mdl : Model) (met : Metabolite)
    (refDist : List (String × ℚ)) (it aa : Bool) :
    (∀ fm : List (String × ℚ),
       (∃ r ∈ relevantReactions mdl met it, lookupQ fm r.id = none) →
       inhibit_metabolite mdl met refDist (.perReaction fm) it aa =
         .error (.uncoveredReactions
           ((inhibitMissing mdl met it (.perReaction fm)).map Reaction.id)) ∧
       (inhibitMissing mdl met it (.perReaction fm)).map Reaction.id ≠ []) ∧
    (∀ q : ℚ, ∀ l : List String,
       inhibit_metabolite mdl met refDist (.uniform q) it aa ≠
         .error (.uncoveredReactions l)) := by
  constructor
  · intro fm ⟨r, hr, hrnone⟩
    have hmem : r ∈ inhibitMissing mdl met it (.perReaction fm) := by
      unfold inhibitMissing
      rw [List.mem_filter]
      refine ⟨hr, ?_⟩
      rw [show inhibitFracMap mdl met it (.perReaction fm) = fm from rfl, hrnone]
      rfl
    have hne : inhibitMissing mdl met it (.perReaction fm) ≠ [] := by
      intro h
      rw [h] at hmem
      cases hmem
    have hieq : (inhibitMissing mdl met it (.perReaction fm)).isEmpty = false := by
      cases hl : (inhibitMissing mdl met it (.perReaction fm)).isEmpty
      · rfl
      · exact absurd (List.isEmpty_iff.mp hl) hne
    constructor
    · unfold inhibit_metabolite
      rw [if_pos hieq]
    · intro h
      exact hne (List.map_eq_nil_iff.mp h)
  · intro q l h
    unfold inhibit_metabolite at h
    rw [if_neg (by rw [inhibitMissing_uniform_empty]; simp)] at h
    cases hloop : inhibitOpsLoop met refDist (inhibitFracMap mdl met it (.uniform q))
        (relevantReactions mdl met it) with
    | error e =>
      rw [hloop] at h
      obtain ⟨rid, hsh⟩ := inhibitOpsLoop_error_shape met refDist _ _ e hloop
      rw [hsh] at h
      cases h
    | ok ops =>
      rw [hloop] at h
      dsimp only at h
      by_cases haa : aa = true
      · rw [if_pos haa] at h
        by_cases hhas : mdl.hasReaction (accumulationExchangeId met) = true
        · rw [if_pos hhas] at h
          simp at h
        · rw [if_neg hhas] at h
          simp at h
      · rw [if_neg haa] at h
        simp at h

theorem C8_fraction_mapping_coverage_witness :
    ((rxnHydrolysis ∈ relevantReactions c5mdl metAtp true ∧
      lookupQ [] (rxnHydrolysis.id) = none) ∧
     inhibit_metabolite c5mdl metAtp c5ref (.perReaction []) true false =
       .error (.uncoveredReactions (["HYDR"]))) := by
  refine ⟨⟨by decide, rfl⟩, ?_⟩
  have h := (C8_fraction_mapping_coverage c5mdl metAtp c5ref true false).1 []
    ⟨rxnHydrolysis, by decide, rfl⟩
  exact h.1.trans (by rfl)

/-- The per-reaction body of the processing-layer `compete_metabolite`
(`marsi/processing/models.py` lines 323-333): skip exchanges; a producing
reaction (coefficient > 0) whose reference flux exceeds the tolerance gets
lower bound `reference + reference * fraction`; a consuming reaction
(coefficient < 0) whose reference flux is below minus the tolerance gets
upper bound `reference + reference * fraction`; a reaction absent from the
reference raises `KeyError`. -/
def competeOpFor (met : Metabolite) (refDist : List (String × ℚ)) (fraction : ℚ)
    (r : Reaction) : Except ManipulationError (Option BoundOp) :=
  if r.isExchange then .ok none
  else if 0 < r.coefficient met then
    match lookupQ refDist r.id with
    | none => .error (.missingReference r.id)
    | some f =>
      if f > fluxTol then
        .ok (some (.changeBounds r.id (some (f + f * fraction)) none))
      else .ok none
  else if r.coefficient met < 0 then
    match lookupQ refDist r.id with
    | none => .error (.missingReference r.id)
    | some f =>
      if f < -fluxTol then
        .ok (some (.changeBounds r.id none (some (f + f * fraction))))
      else .ok none
  else .ok none

/-- The compete loop over the metabolite's (transport-filtered) reactions. -/
def competeOpsLoop (met : Metabolite) (refDist : List (String × ℚ)) (fraction : ℚ) :
    List Reaction → Except ManipulationError (List BoundOp)
  | [] => .ok []
  | r :: rs =>
    match competeOpFor met refDist fraction r with
    | .error e => .error e
    | .ok none => competeOpsLoop met refDist fraction rs
    | .ok (some op) =>
      match competeOpsLoop met refDist fraction rs with
      | .error e => .error e
      | .ok ops => .ok (op :: ops)

/-- `compete_metabolite(metabolite, reference_dist, fraction,
ignore_transport, allow_accumulation, time_machine)`
(`marsi/processing/models.py` lines 293-340). -/
def compete_metabolite (mdl : Model) (met : Metabolite)
    (refDist : List (String × ℚ)) (fraction : ℚ) (it allowAccumulation : Bool) :
    Except ManipulationError (Model × List UndoAction × Option Reaction) :=
  match competeOpsLoop met refDist fraction (relevantReactions mdl met it) with
  | .error e => .error e
  | .ok ops =>
    if allowAccumulation then
      if mdl.hasReaction (accumulationExchangeId met) then
        let s := mdl.applyOps ops
        .ok (s.1, s.2, s.1.findReaction (accumulationExchangeId met))
      else
        let ex := mkDemandExchange ("OF_") met
        let t := mdl.applyOps (ops ++ [.addReaction ex])
        .ok (t.1, t.2, some ex)
    else
      let s := mdl.applyOps ops
      .ok (s.1, s.2, none)

/-- Inhibit every metabolite of the species in turn, threading the model. -/
def inhibitAll (refDist : List (String × ℚ)) (fraction : ℚ) :
    List Metabolite → Model → Except ManipulationError Model
  | [], mdl => .ok mdl
  | met :: rest, mdl =>
    match inhibit_metabolite mdl met refDist (.uniform fraction) true true with
    | .error e => .error e
    | .ok out => inhibitAll refDist fraction rest out.1

/-- Compete every metabolite of the species in turn, threading the model. -/
def competeAll (refDist : List (String × ℚ)) (fraction : ℚ) :
    List Metabolite → Model → Except ManipulationError Model
  | [], mdl => .ok mdl
  | met :: rest, mdl =>
    match compete_metabolite mdl met refDist fraction true true with
    | .error e => .error e
    | .ok out => competeAll refDist fraction rest out.1

/-- `apply_antimetabolite(metabolites, essential_metabolites, reference,
inhibition_fraction, competition_fraction, time_machine=tm)`
(`marsi/processing/models.py` lines 121-141): compete on every metabolite of
the species if any of them is essential, otherwise inhibit every one. -/
def apply_antimetabolite (mdl : Model) (mets : List Metabolite)
    (essential : List String) (reference : List (String × ℚ))
    (inhibitionFraction competitionFraction : ℚ) :
    Except ManipulationError Model :=
  if mets.any (fun m => essential.contains m.id) then
    competeAll reference competitionFraction mets mdl
  else
    inhibitAll reference inhibitionFraction mets mdl

/-- Apply the antimetabolite manipulation for each decoded species target. -/
def applyTargets (essential : List String) (reference : List (String × ℚ))
    (inhibitionFraction competitionFraction : ℚ) :
    List (List Metabolite) → Model → Except ManipulationError Model
  | [], mdl => .ok mdl
  | mets :: rest, mdl =>
    match apply_antimetabolite mdl mets essential reference
        inhibitionFraction competitionFraction with
    | .error e => .error e
    | .ok mdl2 => applyTargets essential reference inhibitionFraction
        competitionFraction rest mdl2

/-- A fitness value: a plain number or a Pareto vector (inspyred emo). -/
inductive Fitness
  | single (q : ℚ)
  | pareto (v : List ℚ)
deriving DecidableEq

/-- The exception classes the evaluator's try block distinguishes:
`SolveError` and any other `Exception`. -/
inductive CaughtError
  | solveError
  | otherError
deriving DecidableEq

/-- The zero fitness assigned on a caught exception: 0, or a Pareto vector of
zeros (one entry per objective) in multi-objective mode. -/
def zeroFitness (isMo : Bool) (nObj : ℕ) : Fitness :=
  if isMo then .pareto (List.replicate nObj 0) else .single 0

/-- `AntimetaboliteEvaluator._evaluate_individual`
(`marsi/metaheuristic/optimization.py` lines 40-68).  The decoded candidate
is the list of species ids; the simulation method together with the fitness
computation is the external call performed inside the try block, and is
abstracted as a function that either produces a fitness or raises one of the
two caught exception classes.  The metabolite-resolution and
`apply_antimetabolite` phase runs inside the TimeMachine scope but outside
the try block, so its exceptions leave the evaluator as `.error`. -/
def evaluate_individual (mdl : Model) (essential : List String)
    (reference : List (String × ℚ)) (inhibitionFraction competitionFraction : ℚ)
    (specieIds : List String)
    (simulateAndScore : Model → Except CaughtError Fitness)
    (isMo : Bool) (nObj : ℕ) : Except ManipulationError Fitness :=
  let metaboliteTargets := specieIds.map (search_metabolites mdl)
  match applyTargets essential reference inhibitionFraction competitionFraction
      metaboliteTargets mdl with
  | .error e => .error e
  | .ok mdl2 =>
    .ok (match simulateAndScore mdl2 with
      | .ok fit => fit
      | .error .solveError => zeroFitness isMo nObj
      | .error .otherError => zeroFitness isMo nObj)

/-- Claim C2, counterexample: the claim says no exception ever propagates out
of the evaluator, but an exception raised while applying the antimetabolite
manipulations (here: the reference flux distribution lacks reaction `HYDR`,
so `inhibit_metabolite` raises `KeyError`) happens before the try block and
leaves the evaluator. -/
theorem C2_evaluator_counterexample :
    evaluate_individual c5mdl [] [] 0 0 (["atp"]) (fun _ => .ok (.single 1))
      false 1 = .error (.missingReference ("HYDR")) := rfl

/-- Claim C2, amended: solver infeasibility and any other exception raised by
the simulation-and-scoring step are caught and scored as fitness 0 (a zero
Pareto vector in multi-objective mode), but an exception raised while
resolving species and applying the antimetabolite manipulations — before the
solve — propagates out of the evaluator. -/
theorem C2_evaluator_error_handling (mdl : Model) (essential : List String)
    (reference : List (String × ℚ)) (inhibitionFraction competitionFraction : ℚ)
    (specieIds : List String)
    (simulateAndScore : Model → Except CaughtError Fitness)
    (isMo : Bool) (nObj : ℕ) :
    (∀ mdl2, applyTargets essential reference inhibitionFraction competitionFraction
        (specieIds.map (search_metabolites mdl)) mdl = .ok mdl2 →
      evaluate_individual mdl essential reference inhibitionFraction
          competitionFraction specieIds simulateAndScore isMo nObj =
        .ok (match simulateAndScore mdl2 with
          | .ok fit => fit
          | .error _ => zeroFitness isMo nObj)) ∧
    (∀ e, applyTargets essential reference inhibitionFraction competitionFraction
        (specieIds.map (search_metabolites mdl)) mdl = .error e →
      evaluate_individual mdl essential reference inhibitionFraction
          competitionFraction specieIds simulateAndScore isMo nObj = .error e) := by
  constructor
  · intro mdl2 h
    unfold evaluate_individual
    dsimp only
    rw [h]
    dsimp only
    cases simulateAndScore mdl2 with
    | ok fit => rfl
    | error c => cases c <;> rfl
  · intro e h
    unfold evaluate_individual
    dsimp only
    rw [h]

/-- The model state after the witness's manipulation phase: `HYDR` tightened
to upper bound `5 * (1/2)` and the demand exchange `I_atp_c` appended. -/
def c2mdl2 : Model :=
  ⟨[⟨"HYDR", -10, 5 * (1/2), [(metAtp, -1), (metAdp, 1)]⟩,
    ⟨"I_atp_c", 0, 1000, [(metAtp, -1)]⟩],
   [metAtp, metAdp]⟩

theorem C2_evaluator_error_handling_witness :
    (applyTargets [] c5ref (1/2) 0 ((["atp"]).map (search_metabolites c5mdl)) c5mdl =
       .ok c2mdl2) ∧
    evaluate_individual c5mdl [] c5ref (1/2) 0 (["atp"])
      (fun _ => .error .solveError) false 2 = .ok (.single 0) := by
  have h : applyTargets [] c5ref (1/2) 0 ((["atp"]).map (search_metabolites c5mdl)) c5mdl =
      .ok c2mdl2 := rfl
  refine ⟨h, ?_⟩
  have h2 := (C2_evaluator_error_handling c5mdl [] c5ref (1/2) 0 (["atp"])
    (fun _ => .error .solveError) false 2).1 c2mdl2 h
  exact h2.trans (by rfl)

/- C6: the post-run greedy minimization
(`marsi/cobra/strain_design/evolutionary.py`,
`process_metabolite_knockout_solution`, lines 185-204). -/

/-- The metrics `_test_solution` returns for a candidate set: the FVA bounds
of the target reaction, the target flux, the growth rate, the target yield
and the remaining objective components. -/
structure SolutionMetrics where
  fvaMin : ℚ
  fvaMax : ℚ
  targetFlux : ℚ
  growthRate : ℚ
  targetYield : ℚ
  objectiveComponents : List ℚ
deriving DecidableEq

/-- The put-back test of the minimization loop (line 195):
`_fva_min != fva_min or _growth_rate < growth_rate or
_target_yield < target_yield or any(_of[i] < of[i] …)`. -/
def removalRejected (new base : SolutionMetrics) : Bool :=
  decide (new.fvaMin ≠ base.fvaMin) || decide (new.growthRate < base.growthRate) ||
  decide (new.targetYield < base.targetYield) ||
  (List.zip new.objectiveComponents base.objectiveComponents).any fun p =>
    decide (p.1 < p.2)

/-- The Pareto-non-worsening relation the specification describes: removal
reduces neither the lower FVA bound, nor the growth rate, nor the target
yield, nor any tracked objective component. -/
def paretoNonWorsening (new base : SolutionMetrics) : Prop :=
  base.fvaMin ≤ new.fvaMin ∧ base.growthRate ≤ new.growthRate ∧
  base.targetYield ≤ new.targetYield ∧
  ∀ p ∈ List.zip new.objectiveComponents base.objectiveComponents, p.2 ≤ p.1

/-- The minimization loop as written: `while len(tested) < len(original)`,
pop the head, evaluate the remaining set, put the member back (at the end)
if removal worsened any metric.  `test` abstracts `_test_solution` (model
re-simulation and FVA); the fuel is the length of the original solution, the
number of iterations the Python loop performs. -/
def minimizeLoop (test : List α → SolutionMetrics) (base : SolutionMetrics) :
    ℕ → List α → List α
  | 0, sol => sol
  | Nat.succ k, sol =>
    match sol with
    | [] => []
    | t :: rest =>
      if removalRejected (test rest) base then minimizeLoop test base k (rest ++ [t])
      else minimizeLoop test base k rest

/-- `process_metabolite_knockout_solution` (minimization part): evaluate the
full solution once as baseline, then run the removal loop. -/
def process_metabolite_knockout_solution (test : List α → SolutionMetrics)
    (solution : List α) : List α :=
  minimizeLoop test (test solution) solution.length solution

/-- The same greedy pass written structurally: members are tried in original
order; `kept` accumulates the members put back so far (they sit behind the
still-untried members, exactly where the loop's append places them). -/
def greedyRemoval (test : List α → SolutionMetrics) (base : SolutionMetrics) :
    List α → List α → List α
  | [], kept => kept
  | t :: rest, kept =>
    if removalRejected (test (rest ++ kept)) base then
      greedyRemoval test base rest (kept ++ [t])
    else greedyRemoval test base rest kept

theorem minimizeLoop_eq_greedy (test : List α → SolutionMetrics)
    (base : SolutionMetrics) :
    ∀ pending kept : List α,
      minimizeLoop test base pending.length (pending ++ kept) =
        greedyRemoval test base pending kept := by
  intro pending
  induction pending with
  | nil => intro kept; rfl
  | cons t rest ih =>
    intro kept
    rw [List.length_cons, List.cons_append, minimizeLoop]
    by_cases h : removalRejected (test (rest ++ kept)) base = true
    · rw [if_pos h, greedyRemoval, if_pos h, List.append_assoc]
      exact ih (kept ++ [t])
    · rw [if_neg h, greedyRemoval, if_neg h]
      exact ih kept

/-- Claim C6: the minimization tries the members of the winning set for
removal one at a time in original order (the loop coincides with the
structural left-to-right greedy pass), and whenever a removal is accepted
(the rejection test fails) the resulting metrics are Pareto-non-worsening
with respect to the original solution's metrics: the lower FVA bound is not
reduced (the code insists on exact equality), nor are growth rate, target
yield or any other tracked objective component. -/
theorem C6_minimization_greedy_pareto (test : List α → SolutionMetrics)
    (sol : List α) :
    (process_metabolite_knockout_solution test sol =
       greedyRemoval test (test sol) sol []) ∧
    (∀ new : SolutionMetrics, removalRejected new (test sol) = false →
       paretoNonWorsening new (test sol)) := by
  constructor
  · unfold process_metabolite_knockout_solution
    have h := minimizeLoop_eq_greedy test (test sol) sol []
    rwa [List.append_nil] at h
  · intro new h
    unfold removalRejected at h
    rw [Bool.or_eq_false_iff, Bool.or_eq_false_iff, Bool.or_eq_false_iff] at h
    obtain ⟨⟨⟨h1, h2⟩, h3⟩, h4⟩ := h
    refine ⟨?_, ?_, ?_, ?_⟩
    · have : new.fvaMin = (test sol).fvaMin := by
        by_contra hne
        rw [decide_eq_true hne] at h1
        cases h1
      exact le_of_eq this.symm
    · have : ¬ new.growthRate < (test sol).growthRate := by
        intro hlt
        rw [decide_eq_true hlt] at h2
        cases h2
      exact not_lt.mp this
    · have : ¬ new.targetYield < (test sol).targetYield := by
        intro hlt
        rw [decide_eq_true hlt] at h3
        cases h3
      exact not_lt.mp this
    · intro p hp
      have := List.any_eq_false.mp h4 p hp
      have hnlt : ¬ p.1 < p.2 := by
        intro hlt
        rw [decide_eq_true hlt] at this
        exact this rfl
      exact not_lt.mp hnlt

def c6metrics : SolutionMetrics := ⟨2, 3, 1, 1, 1, [1]⟩

theorem C6_minimization_greedy_pareto_witness :
    (process_metabolite_knockout_solution (fun _ : List String => c6metrics)
       (["a", "b"]) = ["a", "b"] ∨
     process_metabolite_knockout_solution (fun _ : List String => c6metrics)
       (["a", "b"]) = greedyRemoval (fun _ => c6metrics) c6metrics (["a", "b"]) []) ∧
    (removalRejected c6metrics c6metrics = false ∧
     paretoNonWorsening c6metrics c6metrics) := by
  refine ⟨Or.inr (C6_minimization_greedy_pareto (fun _ => c6metrics) (["a", "b"])).1, ?_, ?_⟩
  · decide
  · exact (C6_minimization_greedy_pareto (fun _ => c6metrics) (["a", "b"])).2
      c6metrics (by decide)

/- C7: the post-run replacement loop
(`marsi/processing/models.py`, `test_reaction_knockout_replacements`,
lines 166-232; the same loop shape drives
`marsi/cobra/strain_design/post_processing.py`, `replace_design`). -/

/-- The loop state: the pool of still-pending targets and the sequence of
targets tested so far (`target_test_count` counts occurrences in it). -/
structure ReplacementState (α : Type _) where
  possibleTargets : List α
  tested : List α
deriving DecidableEq

/-- The termination criterion (lines 171-175): the pool is empty or every
original target has been tested exactly once. -/
def replacementDone [DecidableEq α] (targets : List α)
    (st : ReplacementState α) : Bool :=
  st.possibleTargets.isEmpty || targets.all fun t => decide (st.tested.count t = 1)

/-- One iteration of the while loop: pop the first pending target, record the
test, and — when no acceptable substitute was found (`success` abstracts the
fitness screening of the candidate substitutes) — return the target to the
end of the pool to be retried with different still-pending targets. -/
def replacementStep [DecidableEq α] (success : α → List α → Bool)
    (st : ReplacementState α) : ReplacementState α :=
  match st.possibleTargets with
  | [] => st
  | test :: rest =>
    if success test rest then ⟨rest, st.tested ++ [test]⟩
    else ⟨rest ++ [test], st.tested ++ [test]⟩

/-- The while loop with explicit fuel: it stops as soon as the termination
criterion holds. -/
def replacementLoop [DecidableEq α] (success : α → List α → Bool)
    (targets : List α) : ℕ → ReplacementState α → ReplacementState α
  | 0, st => st
  | Nat.succ k, st =>
    if replacementDone targets st then st
    else replacementLoop success targets k (replacementStep success st)

theorem replacementLoop_reaches [DecidableEq α] (success : α → List α → Bool)
    (targets : List α) :
    ∀ (rem tested junk : List α), targets = tested ++ rem →
      replacementDone targets
        (replacementLoop success targets rem.length ⟨rem ++ junk, tested⟩) = true ∨
      ∃ junk2, replacementLoop success targets rem.length ⟨rem ++ junk, tested⟩ =
        ⟨junk2, targets⟩ := by
  intro rem
  induction rem with
  | nil =>
    intro tested junk hsplit
    right
    refine ⟨junk, ?_⟩
    rw [List.append_nil] at hsplit
    rw [hsplit]
    rfl
  | cons t rem' ih =>
    intro tested junk hsplit
    rw [List.length_cons, replacementLoop]
    by_cases hdone : replacementDone targets ⟨(t :: rem') ++ junk, tested⟩ = true
    · rw [if_pos hdone]
      exact Or.inl hdone
    · rw [if_neg hdone]
      have hstep : replacementStep success ⟨(t :: rem') ++ junk, tested⟩ =
          if success t (rem' ++ junk) then ⟨rem' ++ junk, tested ++ [t]⟩
          else ⟨(rem' ++ junk) ++ [t], tested ++ [t]⟩ := rfl
      rw [hstep]
      have hsplit2 : targets = (tested ++ [t]) ++ rem' := by
        rw [hsplit, List.append_assoc]
        rfl
      by_cases hsucc : success t (rem' ++ junk) = true
      · rw [if_pos hsucc]
        exact ih (tested ++ [t]) junk hsplit2
      · rw [if_neg hsucc, List.append_assoc]
        exact ih (tested ++ [t]) (junk ++ [t]) hsplit2

/-- Claim C7: the replacement loop terminates for every finite set of
targets: after at most as many iterations as there are targets, the
termination criterion holds — the pool is empty (every target substituted)
or every target has been tested exactly once without success and returned to
the pool. -/
theorem C7_replacement_terminates [DecidableEq α] (success : α → List α → Bool)
    (targets : List α) (hnd : targets.Nodup) :
    replacementDone targets
      (replacementLoop success targets targets.length ⟨targets, []⟩) = true := by
  have h := replacementLoop_reaches success targets targets [] [] (by simp)
  rw [List.append_nil] at h
  cases h with
  | inl h => exact h
  | inr h =>
    obtain ⟨junk2, hfin⟩ := h
    rw [hfin]
    unfold replacementDone
    rw [Bool.or_eq_true]
    right
    rw [List.all_eq_true]
    intro t ht
    exact decide_eq_true (List.count_eq_one_of_mem hnd ht)

theorem C7_replacement_terminates_witness :
    ((["A", "B"] : List String).Nodup = True ∧
     replacementDone (["A", "B"])
       (replacementLoop (fun t _ => decide (t = "A")) (["A", "B"]) 2
         ⟨["A", "B"], []⟩) = true) := by
  constructor
  · simp
  · exact C7_replacement_terminates (fun t _ => decide (t = "A")) (["A", "B"])
      (by decide)

/- C9: the indicator-constraint (big-M) formulation
(`marsi/cobra/flux_analysis/manipulation.py`, `compete_metabolite`
lines 28-193 and `inhibit_metabolite` lines 196-362). -/

/-- A solver variable: a reaction's flux expression, the binary indicator
`y_<rid>` or the non-negative auxiliary `u_<rid>`. -/
inductive SolverAtom
  | fluxVar (rid : String)
  | indicatorVar (rid : String)
  | auxiliaryVar (rid : String)
deriving DecidableEq

/-- A linear expression over solver variables: coefficient-atom terms plus a
constant offset. -/
structure LinExpr where
  terms : List (ℚ × SolverAtom)
  offset : ℚ
deriving DecidableEq

/-- A named solver constraint with optional lower/upper bound. -/
structure SolverConstraint where
  name : String
  expr : LinExpr
  lb : Option ℚ
  ub : Option ℚ
deriving DecidableEq

/-- The variable and constraint names already registered with the solver
(the construction de-duplicates by name). -/
structure SolverState where
  variableNames : List String
  constraintNames : List String
deriving DecidableEq

/-- The compartment filter of the big-M variants:
`len(set(m.compartment for m in r.metabolites)) == 1`. -/
def Reaction.oneCompartment (r : Reaction) : Bool :=
  decide ((r.metabolites.map fun p => p.1.compartment).dedup.length = 1)

/-- The aggregate reference turnover:
`sum(abs(r.metabolites[metabolite] * reference_dist.get(r.id, 0)) for r in
metabolite.reactions)` — over ALL reactions of the metabolite, a reaction
absent from the reference contributing 0. -/
def metaboliteTurnover (mdl : Model) (met : Metabolite)
    (refDist : List (String × ℚ)) : ℚ :=
  ((mdl.metaboliteReactions met).map fun r =>
    |r.coefficient met * (lookupQ refDist r.id).getD 0|).sum

/-- Sum of linear expressions (the `sum(aux_variables.values())` operand). -/
def sumLinExprs (l : List LinExpr) : LinExpr :=
  ⟨(l.map LinExpr.terms).flatten, (l.map LinExpr.offset).sum⟩

/-- One iteration of the inhibit big-M loop: irreversible producers are
skipped, irreversible consumers contribute `- flux * coefficient` directly to
the turnover sum, and each reversible reaction gets (at most once, keyed by
name) its indicator/auxiliary variables and the six big-M constraints.
The accumulator carries the solver names, the constraints added so far and
the `aux_variables` map in insertion order. -/
def inhibitBigMStep (met : Metabolite) (M : ℚ)
    (acc : SolverState × List SolverConstraint × List (String × LinExpr))
    (r : Reaction) : SolverState × List SolverConstraint × List (String × LinExpr) :=
  let coefficient := r.coefficient met
  if !r.reversibility then
    if 0 < coefficient then acc
    else (acc.1, acc.2.1, acc.2.2 ++ [(r.id, ⟨[(-coefficient, .fluxVar r.id)], 0⟩)])
  else
    let st := acc.1
    let st2 :=
      if st.variableNames.contains ("y_" ++ r.id) then st
      else { st with variableNames := st.variableNames ++ ["y_" ++ r.id, "u_" ++ r.id] }
    let aux2 := acc.2.2 ++ [(r.id, ⟨[(1, .auxiliaryVar r.id)], 0⟩)]
    if st2.constraintNames.contains ("ind_" ++ r.id ++ "_u") then
      (st2, acc.2.1, aux2)
    else
      let cs : List SolverConstraint :=
        [⟨"ind_" ++ r.id ++ "_l", ⟨[(-coefficient, .fluxVar r.id), (-M, .indicatorVar r.id)], M⟩, some 0, none⟩,
         ⟨"ind_" ++ r.id ++ "_u", ⟨[(-coefficient, .fluxVar r.id), (-M, .indicatorVar r.id)], 0⟩, none, some 0⟩,
         ⟨"aux_" ++ r.id ++ "_a", ⟨[(-M, .indicatorVar r.id), (1, .auxiliaryVar r.id)], 0⟩, none, some 0⟩,
         ⟨"aux_" ++ r.id ++ "_b", ⟨[(M, .indicatorVar r.id), (1, .auxiliaryVar r.id)], 0⟩, some 0, none⟩,
         ⟨"aux_" ++ r.id ++ "_c", ⟨[(M, .indicatorVar r.id), (1, .auxiliaryVar r.id), (coefficient, .fluxVar r.id)], -M⟩, none, some 0⟩,
         ⟨"aux_" ++ r.id ++ "_d", ⟨[(-M, .indicatorVar r.id), (1, .auxiliaryVar r.id), (coefficient, .fluxVar r.id)], M⟩, some 0, none⟩]
      ({ st2 with constraintNames := st2.constraintNames ++ cs.map SolverConstraint.name },
       acc.2.1 ++ cs, aux2)

/-- `inhibit_metabolite(model, metabolite, reference_dist, fraction,
allow_accumulation, constant, time_machine)` — the big-M variant, reduced to
its solver additions.  Returns the final solver names, all added constraints,
and the aggregate turnover constraint
`sum(u) <= (1 - fraction) * (turnover / 2)` named `take_less_<met.id>`. -/
def inhibit_metabolite_indicator (mdl : Model) (met : Metabolite)
    (refDist : List (String × ℚ)) (fraction M : ℚ) (solver : SolverState) :
    SolverState × List SolverConstraint × SolverConstraint :=
  let reactions := (mdl.metaboliteReactions met).filter Reaction.oneCompartment
  let turnover := metaboliteTurnover mdl met refDist
  let acc := reactions.foldl (inhibitBigMStep met M) (solver, [], [])
  let tc : SolverConstraint :=
    ⟨"take_less_" ++ met.id, sumLinExprs (acc.2.2.map Prod.snd), none,
     some ((1 - fraction) * (turnover / 2))⟩
  ({ acc.1 with constraintNames := acc.1.constraintNames ++ [tc.name] },
   acc.2.1 ++ [tc], tc)

/-- One iteration of the compete big-M loop (the mirror of
`inhibitBigMStep`): irreversible consumers are skipped, irreversible
producers contribute `flux * coefficient` directly, reversible reactions get
the mirrored six big-M constraints. -/
def competeBigMStep (met : Metabolite) (M : ℚ)
    (acc : SolverState × List SolverConstraint × List (String × LinExpr))
    (r : Reaction) : SolverState × List SolverConstraint × List (String × LinExpr) :=
  let coefficient := r.coefficient met
  if !r.reversibility then
    if coefficient < 0 then acc
    else (acc.1, acc.2.1, acc.2.2 ++ [(r.id, ⟨[(coefficient, .fluxVar r.id)], 0⟩)])
  else
    let st := acc.1
    let st2 :=
      if st.variableNames.contains ("y_" ++ r.id) then st
      else { st with variableNames := st.variableNames ++ ["y_" ++ r.id, "u_" ++ r.id] }
    let aux2 := acc.2.2 ++ [(r.id, ⟨[(1, .auxiliaryVar r.id)], 0⟩)]
    if st2.constraintNames.contains ("ind_" ++ r.id ++ "_u") then
      (st2, acc.2.1, aux2)
    else
      let cs : List SolverConstraint :=
        [⟨"ind_" ++ r.id ++ "_l", ⟨[(coefficient, .fluxVar r.id), (-M, .indicatorVar r.id)], M⟩, some 0, none⟩,
         ⟨"ind_" ++ r.id ++ "_u", ⟨[(coefficient, .fluxVar r.id), (-M, .indicatorVar r.id)], 0⟩, none, some 0⟩,
         ⟨"aux_" ++ r.id ++ "_a", ⟨[(-M, .indicatorVar r.id), (1, .auxiliaryVar r.id)], 0⟩, none, some 0⟩,
         ⟨"aux_" ++ r.id ++ "_b", ⟨[(M, .indicatorVar r.id), (1, .auxiliaryVar r.id)], 0⟩, some 0, none⟩,
         ⟨"aux_" ++ r.id ++ "_c", ⟨[(M, .indicatorVar r.id), (1, .auxiliaryVar r.id), (-coefficient, .fluxVar r.id)], -M⟩, none, some 0⟩,
         ⟨"aux_" ++ r.id ++ "_d", ⟨[(-M, .indicatorVar r.id), (1, .auxiliaryVar r.id), (-coefficient, .fluxVar r.id)], M⟩, some 0, none⟩]
      ({ st2 with constraintNames := st2.constraintNames ++ cs.map SolverConstraint.name },
       acc.2.1 ++ cs, aux2)

/-- `compete_metabolite` — the big-M variant: the aggregate constraint is
`sum(u) >= (1 + fraction) * (turnover / 2)`, same name. -/
def compete_metabolite_indicator (mdl : Model) (met : Metabolite)
    (refDist : List (String × ℚ)) (fraction M : ℚ) (solver : SolverState) :
    SolverState × List SolverConstraint × SolverConstraint :=
  let reactions := (mdl.metaboliteReactions met).filter Reaction.oneCompartment
  let turnover := metaboliteTurnover mdl met refDist
  let acc := reactions.foldl (competeBigMStep met M) (solver, [], [])
  let tc : SolverConstraint :=
    ⟨"take_less_" ++ met.id, sumLinExprs (acc.2.2.map Prod.snd),
     some ((1 + fraction) * (turnover / 2)), none⟩
  ({ acc.1 with constraintNames := acc.1.constraintNames ++ [tc.name] },
   acc.2.1 ++ [tc], tc)

/-- Claim C9: in the big-M formulation the aggregate turnover constraint is
stated against HALF the summed absolute reference turnover:
`inhibit_metabolite` bounds `sum(u)` above by
`(1 - fraction) * (turnover / 2)` and `compete_metabolite` bounds it below by
`(1 + fraction) * (turnover / 2)`, where the turnover sums
`|coefficient * reference flux|` over all reactions of the metabolite with
absent reactions contributing 0. -/
theorem C9_turnover_constraint_halved (mdl : Model) (met : Metabolite)
    (refDist : List (String × ℚ)) (fraction M : ℚ) (solver : SolverState) :
    ((inhibit_metabolite_indicator mdl met refDist fraction M solver).2.2.ub =
       some ((1 - fraction) * (metaboliteTurnover mdl met refDist / 2)) ∧
     (inhibit_metabolite_indicator mdl met refDist fraction M solver).2.2.lb = none ∧
     (inhibit_metabolite_indicator mdl met refDist fraction M solver).2.2.name =
       "take_less_" ++ met.id) ∧
    ((compete_metabolite_indicator mdl met refDist fraction M solver).2.2.lb =
       some ((1 + fraction) * (metaboliteTurnover mdl met refDist / 2)) ∧
     (compete_metabolite_indicator mdl met refDist fraction M solver).2.2.ub = none ∧
     (compete_metabolite_indicator mdl met refDist fraction M solver).2.2.name =
       "take_less_" ++ met.id) ∧
    (metaboliteTurnover mdl met refDist =
      ((mdl.metaboliteReactions met).map fun r =>
        |r.coefficient met * ((lookupQ refDist r.id).getD 0)|).sum) := by
  exact ⟨⟨rfl, rfl, rfl⟩, ⟨rfl, rfl, rfl⟩, rfl⟩

/- C1: the sharded nearest-neighbor index.  The shard classes
(NearestNeighbors / DistributedNearestNeighbors) are a compiled extension
module absent from the Python sources; they are modelled from the spec
(sections 4.1 and 4.2).  The sharded construction
`_build_nearest_neighbors_model` (`marsi/nearest_neighbors/__init__.py`,
lines 102-109) is translated from the source. -/

/-- Modelled from the spec: the Tanimoto coefficient over the set-bit
positions of two fingerprints, `|A ∩ B| / |A ∪ B|`. -/
def tanimotoCoefficient (a b : List ℕ) : ℚ :=
  ((a.toFinset ∩ b.toFinset).card : ℚ) / ((a.toFinset ∪ b.toFinset).card : ℚ)

/-- Modelled from the spec: Tanimoto distance `1 - coefficient`. -/
def tanimotoDistance (a b : List ℕ) : ℚ := 1 - tanimotoCoefficient a b

/-- One scored hit: the compound's insertion position in the master table,
its identifier, and its distance to the query. -/
structure Entry where
  idx : ℕ
  key : String
  dist : ℚ
deriving DecidableEq

/-- Ascending distance; ties broken by insertion order (the spec's stable
sort: equal distances keep their original relative order, and insertion
positions are globally unique). -/
def entryLE (a b : Entry) : Prop :=
  a.dist < b.dist ∨ (a.dist = b.dist ∧ a.idx ≤ b.idx)

/-- The strict version of `entryLE`. -/
def entryLT (a b : Entry) : Prop :=
  a.dist < b.dist ∨ (a.dist = b.dist ∧ a.idx < b.idx)

instance : DecidableRel entryLE := fun a b => by
  unfold entryLE
  infer_instance

instance : IsTotal Entry entryLE := by
  constructor
  intro a b
  unfold entryLE
  rcases lt_trichotomy a.dist b.dist with h | h | h
  · exact Or.inl (Or.inl h)
  · rcases le_total a.idx b.idx with h2 | h2
    · exact Or.inl (Or.inr ⟨h, h2⟩)
    · exact Or.inr (Or.inr ⟨h.symm, h2⟩)
  · exact Or.inr (Or.inl h)

instance : IsTrans Entry entryLE := by
  constructor
  intro a b c hab hbc
  unfold entryLE at *
  rcases hab with h1 | ⟨h1, h1x⟩
  · rcases hbc with h2 | ⟨h2, _⟩
    · exact Or.inl (lt_trans h1 h2)
    · exact Or.inl (h2 ▸ h1)
  · rcases hbc with h2 | ⟨h2, h2x⟩
    · exact Or.inl (h1 ▸ h2)
    · exact Or.inr ⟨h1.trans h2, le_trans h1x h2x⟩

theorem entryLT_asymm {a b : Entry} (h1 : entryLT a b) (h2 : entryLT b a) : False := by
  unfold entryLT at *
  rcases h1 with h1 | ⟨h1, h1x⟩
  · rcases h2 with h2 | ⟨h2, _⟩
    · exact absurd (lt_trans h1 h2) (lt_irrefl _)
    · exact absurd (h2 ▸ h1) (lt_irrefl _)
  · rcases h2 with h2 | ⟨_, h2x⟩
    · exact absurd (h1 ▸ h2) (lt_irrefl _)
    · exact absurd (lt_trans h1x h2x) (lt_irrefl _)

theorem entryLT_irrefl (a : Entry) (h : entryLT a a) : False :=
  entryLT_asymm h h

instance : IsAntisymm Entry entryLT :=
  ⟨fun _ _ h1 h2 => absurd h2 (fun h => entryLT_asymm h1 h)⟩

/-- The stable ascending sort used by the modelled queries. -/
def sortEntries (l : List Entry) : List Entry := l.insertionSort entryLE

theorem sortEntries_perm (l : List Entry) : (sortEntries l).Perm l :=
  List.perm_insertionSort entryLE l

theorem sortEntries_sorted_le (l : List Entry) : (sortEntries l).Sorted entryLE :=
  List.sorted_insertionSort entryLE l

theorem sorted_lt_of_le_nodup {l : List Entry} (hs : l.Sorted entryLE)
    (hnd : (l.map Entry.idx).Nodup) : l.Sorted entryLT := by
  have hne : l.Pairwise fun a b => a.idx ≠ b.idx := List.pairwise_map.mp hnd
  refine (hs.and hne).imp ?_
  rintro a b ⟨hle, hne2⟩
  rcases hle with h | ⟨h, hx⟩
  · exact Or.inl h
  · exact Or.inr ⟨h, lt_of_le_of_ne hx hne2⟩

theorem sortEntries_map_idx_nodup {l : List Entry}
    (hnd : (l.map Entry.idx).Nodup) : ((sortEntries l).map Entry.idx).Nodup := by
  exact (((sortEntries_perm l).map Entry.idx).nodup_iff).mpr hnd

theorem sortEntries_sorted_lt {l : List Entry}
    (hnd : (l.map Entry.idx).Nodup) : (sortEntries l).Sorted entryLT :=
  sorted_lt_of_le_nodup (sortEntries_sorted_le l) (sortEntries_map_idx_nodup hnd)

theorem mem_not_head_of_sorted {a : Entry} {l : List Entry}
    (hs : (a :: l).Sorted entryLT) : a ∉ l := fun hmem =>
  entryLT_irrefl a (List.rel_of_pairwise_cons hs hmem)

/-- A strictly sorted list is a sublist of any strictly sorted list
containing its elements. -/
theorem sorted_subset_sublist :
    ∀ (l2 l1 : List Entry), l1.Sorted entryLT → l2.Sorted entryLT →
      (∀ a ∈ l1, a ∈ l2) → l1.Sublist l2 := by
  intro l2
  induction l2 with
  | nil =>
    intro l1 _ _ hsub
    cases l1 with
    | nil => exact List.Sublist.refl _
    | cons a l1' => cases hsub a (List.mem_cons_self _ _)
  | cons b l2' ih =>
    intro l1 hs1 hs2 hsub
    cases l1 with
    | nil => exact List.nil_sublist _
    | cons a l1' =>
      by_cases hab : a = b
      · subst hab
        refine List.Sublist.cons₂ a (ih l1' (hs1.sublist (List.sublist_cons_self _ _)) (hs2.sublist (List.sublist_cons_self _ _)) ?_)
        intro x hx
        have hx2 := hsub x (List.mem_cons_of_mem _ hx)
        cases List.mem_cons.mp hx2 with
        | inl heq =>
          subst heq
          exact absurd hx (mem_not_head_of_sorted hs1)
        | inr h => exact h
      · have ha2 : a ∈ l2' := by
          have := hsub a (List.mem_cons_self _ _)
          cases List.mem_cons.mp this with
          | inl h => exact absurd h hab
          | inr h => exact h
        refine List.Sublist.cons b (ih (a :: l1') hs1 (hs2.sublist (List.sublist_cons_self _ _)) ?_)
        intro x hx
        cases List.mem_cons.mp hx with
        | inl heq => exact heq ▸ ha2
        | inr hx' =>
          have hx2 := hsub x (List.mem_cons_of_mem _ hx')
          cases List.mem_cons.mp hx2 with
          | inl heq =>
            subst heq
            have h1 : entryLT a x := List.rel_of_pairwise_cons hs1 hx'
            have h2 : entryLT x a := List.rel_of_pairwise_cons hs2 ha2
            exact absurd h2 (fun h => entryLT_asymm h1 h)
          | inr h => exact h

theorem mem_take_mono {e : Entry} {l : List Entry} {m n : ℕ} (hmn : m ≤ n)
    (h : e ∈ l.take m) : e ∈ l.take n := by
  have : l.take m = (l.take n).take m := by
    rw [List.take_take, Nat.min_eq_left hmn]
  rw [this] at h
  exact List.take_subset m (l.take n) h

/-- An element of the global top-k that belongs to a sorted sublist lies in
that sublist's top-k as well. -/
theorem mem_take_of_sublist :
    ∀ (A : List Entry) (k : ℕ) (B : List Entry) (e : Entry),
      A.Sorted entryLT → B.Sublist A → e ∈ B → e ∈ A.take k → e ∈ B.take k := by
  intro A
  induction A with
  | nil =>
    intro k B e _ hBA he _
    rw [List.sublist_nil.mp hBA] at he
    cases he
  | cons a A' ih =>
    intro k B e hs hBA he htk
    cases k with
    | zero => simp at htk
    | succ j =>
      rw [List.take_succ_cons] at htk
      have hanotin : a ∉ A' := mem_not_head_of_sorted hs
      have hsA' : A'.Sorted entryLT := hs.sublist (List.sublist_cons_self _ _)
      cases hBA with
      | cons _ hBA' =>
        cases List.mem_cons.mp htk with
        | inl heq =>
          subst heq
          exact absurd (hBA'.subset he) hanotin
        | inr htk' =>
          exact mem_take_mono (Nat.le_succ j) (ih j B e hsA' hBA' he htk')
      | cons₂ _ hBA' =>
        cases List.mem_cons.mp htk with
        | inl heq =>
          subst heq
          rw [List.take_succ_cons]
          exact List.mem_cons_self _ _
        | inr htk' =>
          cases List.mem_cons.mp he with
          | inl heq =>
            subst heq
            exact absurd (List.take_subset j A' htk') hanotin
          | inr he' =>
            rw [List.take_succ_cons]
            exact List.mem_cons_of_mem _ (ih j _ e hsA' hBA' he' htk')

/-- If `B` sits between the top-k of a strictly sorted `A` and `A` itself
(as sublists), the top-k of `B` is exactly the top-k of `A`. -/
theorem take_eq_of_sandwich :
    ∀ (A : List Entry) (k : ℕ) (B : List Entry),
      A.Sorted entryLT → B.Sublist A → (A.take k).Sublist B →
      B.take k = A.take k := by
  intro A
  induction A with
  | nil =>
    intro k B _ hBA _
    rw [List.sublist_nil.mp hBA]
  | cons a A' ih =>
    intro k B hs hBA htk
    cases k with
    | zero => rfl
    | succ j =>
      rw [List.take_succ_cons] at htk ⊢
      have hanotin : a ∉ A' := mem_not_head_of_sorted hs
      have hsA' : A'.Sorted entryLT := hs.sublist (List.sublist_cons_self _ _)
      cases hBA with
      | cons _ hBA' =>
        have haB : a ∈ _ := htk.subset (List.mem_cons_self _ _)
        exact absurd (hBA'.subset haB) hanotin
      | cons₂ _ hBA' =>
        have h2 := List.cons_sublist_cons.mp htk
        rw [List.take_succ_cons, ih j _ hsA' hBA' h2]

/-- The scored entries of a table slice whose first compound sits at global
insertion position `base`. -/
def scoredEntries (q : List ℕ) (base : ℕ) (tbl : List (String × List ℕ)) :
    List Entry :=
  (List.enumFrom base tbl).map fun p => ⟨p.1, p.2.1, tanimotoDistance q p.2.2⟩

/-- Modelled from the spec: one index shard (`NearestNeighbors`) over
parallel arrays of identifiers, fingerprints and fingerprint lengths;
`base` is the shard's offset in the master table, so that insertion order
is global across the ordered shard list. -/
structure NearestNeighbors where
  base : ℕ
  identifiers : List String
  fingerprints : List (List ℕ)
  fplengths : List ℕ
deriving DecidableEq

/-- The shard's (identifier, fingerprint) table. -/
def NearestNeighbors.table (s : NearestNeighbors) : List (String × List ℕ) :=
  s.identifiers.zip s.fingerprints

/-- Modelled from the spec: `k_nearest_neighbors(query, k)` on one shard:
the k compounds of smallest Tanimoto distance, ties broken by insertion
order, in ascending distance order; all compounds if k exceeds the shard
size. -/
def NearestNeighbors.knn (s : NearestNeighbors) (q : List ℕ) (k : ℕ) :
    List Entry :=
  (sortEntries (scoredEntries q s.base s.table)).take k

/-- Modelled from the spec: the fixed ordered ensemble of shards. -/
structure DistributedNearestNeighbors where
  models : List NearestNeighbors
deriving DecidableEq

/-- Modelled from the spec: distributed `k_nearest_neighbors(query, k)`:
query every shard for its own k nearest, merge the shard-local top-k lists,
re-sort the merged set by distance (stably, so ties keep insertion order)
and take the global top k. -/
def DistributedNearestNeighbors.knn (d : DistributedNearestNeighbors)
    (q : List ℕ) (k : ℕ) : List Entry :=
  (sortEntries ((d.models.map fun s => s.knn q k).flatten)).take k

/-- Python slice `xs[start:start+len]` (clamped at the end of the list). -/
def sliceList (xs : List α) (start len : ℕ) : List α := (xs.drop start).take len

/-- `_build_nearest_neighbors_model(indices, features, lengths, n_models)`
(`marsi/nearest_neighbors/__init__.py` lines 102-109): chunk size
`math.ceil(len(indices) / n_models)`; shard i is built from the slice
`[i*c, (i+1)*c)` of the three parallel arrays (the source's 1-based
`((i-1)*c, i*c)` chunk bounds written 0-based). -/
def buildNearestNeighborsModel (indices : List String)
    (features : List (List ℕ)) (lengths : List ℕ) (nModels : ℕ) :
    DistributedNearestNeighbors :=
  let c := (indices.length + nModels - 1) / nModels
  ⟨(List.range nModels).map fun i =>
    ⟨i * c, sliceList indices (i * c) c, sliceList features (i * c) c,
     sliceList lengths (i * c) c⟩⟩

/-- A single, non-sharded index over the same pairs. -/
def singleIndex (indices : List String) (features : List (List ℕ))
    (lengths : List ℕ) : NearestNeighbors :=
  ⟨0, indices, features, lengths⟩

theorem slice_zip (a : List α) (b : List β) (s c : ℕ) :
    (sliceList a s c).zip (sliceList b s c) = sliceList (a.zip b) s c := by
  unfold sliceList
  change List.zipWith Prod.mk _ _ = List.take c (List.drop s (List.zipWith Prod.mk a b))
  rw [List.drop_zipWith, List.take_zipWith]

theorem scoredEntries_append (q : List ℕ) (b : ℕ)
    (t1 t2 : List (String × List ℕ)) :
    scoredEntries q b (t1 ++ t2) =
      scoredEntries q b t1 ++ scoredEntries q (b + t1.length) t2 := by
  unfold scoredEntries
  rw [List.enumFrom_append, List.map_append]

theorem scoredEntries_map_idx (q : List ℕ) (b : ℕ)
    (t : List (String × List ℕ)) :
    (scoredEntries q b t).map Entry.idx = List.range' b t.length := by
  unfold scoredEntries
  rw [List.map_map]
  exact List.enumFrom_map_fst b t

/-- Covering: the master length never exceeds shard count times the ceiling
chunk size. -/
theorem length_le_chunks (len n : ℕ) (hn : 0 < n) :
    len ≤ n * ((len + n - 1) / n) := by
  have h := Nat.div_add_mod (len + n - 1) n
  have hr : (len + n - 1) % n < n := Nat.mod_lt _ hn
  omega

/-- Concatenating the scored entries of the successive chunk slices yields
the scored entries of the whole table. -/
theorem scored_chunks_flatten (q : List ℕ) (c : ℕ) :
    ∀ (n : ℕ) (t : List (String × List ℕ)) (b : ℕ), t.length ≤ n * c →
      ((List.range n).map fun i =>
        scoredEntries q (b + i * c) (sliceList t (i * c) c)).flatten =
      scoredEntries q b t := by
  intro n
  induction n with
  | zero =>
    intro t b hlen
    have ht : t = [] := by
      cases t with
      | nil => rfl
      | cons x xs => simp at hlen
    subst ht
    rfl
  | succ m ih =>
    intro t b hlen
    rw [List.range_succ_eq_map, List.map_cons, List.map_map, List.flatten_cons]
    have hhead : scoredEntries q (b + 0 * c) (sliceList t (0 * c) c) =
        scoredEntries q b (t.take c) := by
      rw [Nat.zero_mul, Nat.add_zero]
      rfl
    rw [hhead]
    have htail : (List.range m).map
        ((fun i => scoredEntries q (b + i * c) (sliceList t (i * c) c)) ∘ Nat.succ) =
        (List.range m).map fun i =>
          scoredEntries q ((b + c) + i * c) (sliceList (t.drop c) (i * c) c) := by
      apply List.map_congr_left
      intro i _
      have harith : b + Nat.succ i * c = b + c + i * c := by
        rw [Nat.succ_mul]
        omega
      have hslice : sliceList t (Nat.succ i * c) c =
          sliceList (t.drop c) (i * c) c := by
        unfold sliceList
        rw [List.drop_drop]
        rw [Nat.succ_mul, Nat.add_comm (i * c) c]
      rw [Function.comp_apply, harith, hslice]
    rw [htail]
    have hlen' : (t.drop c).length ≤ m * c := by
      rw [List.length_drop]
      rw [Nat.succ_mul] at hlen
      exact Nat.sub_le_iff_le_add.mpr hlen
    rw [ih (t.drop c) (b + c) hlen']
    by_cases hc : c ≤ t.length
    · have hlt : (t.take c).length = c := by
        rw [List.length_take]
        exact Nat.min_eq_left hc
      rw [show b + c = b + (t.take c).length by rw [hlt]]
      rw [← scoredEntries_append, List.take_append_drop]
    · have hdrop : t.drop c = [] := by
        apply List.drop_eq_nil_of_le
        omega
      have htake : t.take c = t := List.take_of_length_le (by omega)
      rw [hdrop, htake]
      show scoredEntries q b t ++ [] = scoredEntries q b t
      rw [List.append_nil]

/-- The scored entries of chunk i of the master table. -/
def chunkEntries (q : List ℕ) (tbl : List (String × List ℕ)) (c i : ℕ) :
    List Entry :=
  scoredEntries q (i * c) (sliceList tbl (i * c) c)

/-- Chunk i's local top-k. -/
def chunkTopK (q : List ℕ) (tbl : List (String × List ℕ)) (c k i : ℕ) :
    List Entry :=
  (sortEntries (chunkEntries q tbl c i)).take k

theorem build_knn_eq (ids : List String) (fps : List (List ℕ))
    (lens : List ℕ) (n k : ℕ) (q : List ℕ) :
    (buildNearestNeighborsModel ids fps lens n).knn q k =
      (sortEntries (((List.range n).map
        (chunkTopK q (ids.zip fps) ((ids.length + n - 1) / n) k)).flatten)).take k := by
  unfold buildNearestNeighborsModel DistributedNearestNeighbors.knn
  dsimp only
  rw [List.map_map]
  congr 2
  congr 1
  apply List.map_congr_left
  intro i _
  show (NearestNeighbors.mk _ _ _ _).knn q k = _
  unfold NearestNeighbors.knn NearestNeighbors.table chunkTopK chunkEntries
  dsimp only
  rw [slice_zip]

theorem distributed_topk_eq (q : List ℕ) (tbl : List (String × List ℕ))
    (c n k : ℕ) (hcov : tbl.length ≤ n * c) :
    (sortEntries (((List.range n).map (chunkTopK q tbl c k)).flatten)).take k =
      (sortEntries (scoredEntries q 0 tbl)).take k := by
  have hjoin : ((List.range n).map (chunkEntries q tbl c)).flatten =
      scoredEntries q 0 tbl := by
    have h := scored_chunks_flatten q c n tbl 0 hcov
    rw [← h]
    congr 1
    apply List.map_congr_left
    intro i _
    unfold chunkEntries
    rw [Nat.zero_add]
  have hfull_nodup : ((scoredEntries q 0 tbl).map Entry.idx).Nodup := by
    rw [scoredEntries_map_idx]
    exact List.nodup_range' 0 tbl.length
  have hA_lt : (sortEntries (scoredEntries q 0 tbl)).Sorted entryLT :=
    sortEntries_sorted_lt hfull_nodup
  have hchunk_nodup : ∀ i, ((chunkEntries q tbl c i).map Entry.idx).Nodup := by
    intro i
    unfold chunkEntries
    rw [scoredEntries_map_idx]
    exact List.nodup_range' _ _
  have hSi_lt : ∀ i, (sortEntries (chunkEntries q tbl c i)).Sorted entryLT :=
    fun i => sortEntries_sorted_lt (hchunk_nodup i)
  have hchunk_sub : ∀ i ∈ List.range n, ∀ e ∈ chunkEntries q tbl c i,
      e ∈ scoredEntries q 0 tbl := by
    intro i hi e he
    rw [← hjoin]
    exact List.mem_flatten.mpr ⟨_, List.mem_map_of_mem _ hi, he⟩
  have hmemA : ∀ e ∈ scoredEntries q 0 tbl,
      e ∈ sortEntries (scoredEntries q 0 tbl) :=
    fun e he => ((sortEntries_perm _).mem_iff).mpr he
  have hSi_sub_A : ∀ i ∈ List.range n,
      (sortEntries (chunkEntries q tbl c i)).Sublist
        (sortEntries (scoredEntries q 0 tbl)) := by
    intro i hi
    apply sorted_subset_sublist _ _ (hSi_lt i) hA_lt
    intro a ha
    exact hmemA a (hchunk_sub i hi a (((sortEntries_perm _).mem_iff).mp ha))
  have htopk_in_M : ∀ e ∈ (sortEntries (scoredEntries q 0 tbl)).take k,
      e ∈ ((List.range n).map (chunkTopK q tbl c k)).flatten := by
    intro e he
    have heA : e ∈ sortEntries (scoredEntries q 0 tbl) := List.take_subset _ _ he
    have hefull : e ∈ scoredEntries q 0 tbl := ((sortEntries_perm _).mem_iff).mp heA
    rw [← hjoin] at hefull
    obtain ⟨l, hl, hel⟩ := List.mem_flatten.mp hefull
    obtain ⟨i, hi, rfl⟩ := List.mem_map.mp hl
    have heSi : e ∈ sortEntries (chunkEntries q tbl c i) :=
      ((sortEntries_perm _).mem_iff).mpr hel
    have htk2 := mem_take_of_sublist _ k _ e hA_lt (hSi_sub_A i hi) heSi he
    exact List.mem_flatten.mpr ⟨_, List.mem_map_of_mem _ hi, htk2⟩
  have hBi_nodup : ∀ i, ((chunkTopK q tbl c k i).map Entry.idx).Nodup := by
    intro i
    have h1 : ((chunkTopK q tbl c k i).map Entry.idx).Sublist
        ((sortEntries (chunkEntries q tbl c i)).map Entry.idx) :=
      (List.take_sublist _ _).map _
    exact h1.nodup (sortEntries_map_idx_nodup (hchunk_nodup i))
  have hBi_mem_bound : ∀ i, ∀ x ∈ (chunkTopK q tbl c k i).map Entry.idx,
      i * c ≤ x ∧ x < i * c + c := by
    intro i x hx
    have h1 : x ∈ (sortEntries (chunkEntries q tbl c i)).map Entry.idx :=
      ((List.take_sublist _ _).map _).subset hx
    have h2 : x ∈ (chunkEntries q tbl c i).map Entry.idx :=
      (((sortEntries_perm _).map _).mem_iff).mp h1
    unfold chunkEntries at h2
    rw [scoredEntries_map_idx] at h2
    have h3 := List.mem_range'_1.mp h2
    have h4 : (sliceList tbl (i * c) c).length ≤ c := by
      unfold sliceList
      exact List.length_take_le _ _
    exact ⟨h3.1, lt_of_lt_of_le h3.2 (by omega)⟩
  have hM_nodup : ((((List.range n).map (chunkTopK q tbl c k)).flatten).map
      Entry.idx).Nodup := by
    rw [List.map_flatten, List.map_map]
    rw [List.nodup_flatten]
    constructor
    · intro l hl
      obtain ⟨i, hi, rfl⟩ := List.mem_map.mp hl
      exact hBi_nodup i
    · rw [List.pairwise_map]
      have hplt : (List.range n).Pairwise (· < ·) := by
        rw [List.range_eq_range']
        exact List.pairwise_lt_range' 0 n
      refine hplt.imp ?_
      intro i j hij
      intro x hxi hxj
      have h1 := hBi_mem_bound i x hxi
      have h2 := hBi_mem_bound j x hxj
      have hstep : (i + 1) * c ≤ j * c := Nat.mul_le_mul_right c hij
      have h3 : x < (i + 1) * c := by
        rw [Nat.succ_mul]
        exact h1.2
      exact absurd rfl (ne_of_lt (lt_of_lt_of_le (lt_of_lt_of_le h3 hstep) h2.1))
  have hM_sub_full : ∀ x ∈ ((List.range n).map (chunkTopK q tbl c k)).flatten,
      x ∈ scoredEntries q 0 tbl := by
    intro x hx
    obtain ⟨l, hl, hxl⟩ := List.mem_flatten.mp hx
    obtain ⟨i, hi, rfl⟩ := List.mem_map.mp hl
    have h1 : x ∈ sortEntries (chunkEntries q tbl c i) := List.take_subset _ _ hxl
    exact hchunk_sub i hi x (((sortEntries_perm _).mem_iff).mp h1)
  have hSM_lt := sortEntries_sorted_lt hM_nodup
  have hSM_sub_A : (sortEntries (((List.range n).map (chunkTopK q tbl c k)).flatten)).Sublist
      (sortEntries (scoredEntries q 0 tbl)) := by
    apply sorted_subset_sublist _ _ hSM_lt hA_lt
    intro a ha
    exact hmemA a (hM_sub_full a (((sortEntries_perm _).mem_iff).mp ha))
  have htakeA_sorted : ((sortEntries (scoredEntries q 0 tbl)).take k).Sorted entryLT :=
    List.Pairwise.sublist (List.take_sublist _ _) hA_lt
  have htakeA_sub_SM : ((sortEntries (scoredEntries q 0 tbl)).take k).Sublist
      (sortEntries (((List.range n).map (chunkTopK q tbl c k)).flatten)) := by
    apply sorted_subset_sublist _ _ htakeA_sorted hSM_lt
    intro e he
    exact ((sortEntries_perm _).mem_iff).mpr (htopk_in_M e he)
  exact take_eq_of_sandwich _ k _ hA_lt hSM_sub_A htakeA_sub_SM

/-- Claim C1: for every set of (identifier, fingerprint) pairs, the
distributed index built by `_build_nearest_neighbors_model` (which partitions
the master table into `n_models` contiguous slices) answers
`k_nearest_neighbors(q, k)` exactly as the single non-sharded index over all
the pairs — the same entries, identifiers, distances and order; and when k
is at least the number of indexed compounds, the whole table is returned
(the result is a permutation of all scored entries). -/
theorem C1_distributed_knn_refines_single (ids : List String)
    (fps : List (List ℕ)) (lens : List ℕ) (n k : ℕ) (q : List ℕ)
    (hn : 0 < n) :
    (buildNearestNeighborsModel ids fps lens n).knn q k =
      (singleIndex ids fps lens).knn q k ∧
    (ids.length ≤ k →
      ((singleIndex ids fps lens).knn q k).Perm
        (scoredEntries q 0 (ids.zip fps))) := by
  have hcov : (ids.zip fps).length ≤ n * ((ids.length + n - 1) / n) := by
    rw [List.length_zip]
    exact le_trans (Nat.min_le_left _ _) (length_le_chunks ids.length n hn)
  constructor
  · rw [build_knn_eq, distributed_topk_eq q (ids.zip fps) _ n k hcov]
    rfl
  · intro hk
    have hlen : (sortEntries (scoredEntries q 0 (ids.zip fps))).length ≤ k := by
      have h1 : (sortEntries (scoredEntries q 0 (ids.zip fps))).length =
          (scoredEntries q 0 (ids.zip fps)).length :=
        (sortEntries_perm _).length_eq
      have h2 : (scoredEntries q 0 (ids.zip fps)).length = (ids.zip fps).length := by
        unfold scoredEntries
        rw [List.length_map, List.enumFrom_length]
      rw [h1, h2, List.length_zip]
      exact le_trans (Nat.min_le_left _ _) hk
    show ((sortEntries (scoredEntries q 0 (ids.zip fps))).take k).Perm _
    rw [List.take_of_length_le hlen]
    exact sortEntries_perm _

theorem C1_distributed_knn_refines_single_witness :
    (0 < 2 ∧ (["a", "b", "c"] : List String).length ≤ 5) ∧
    (buildNearestNeighborsModel (["a", "b", "c"]) ([[0], [1], [0, 1]])
        ([1, 1, 2]) 2).knn ([0]) 5 =
      (singleIndex (["a", "b", "c"]) ([[0], [1], [0, 1]]) ([1, 1, 2])).knn ([0]) 5 ∧
    ((singleIndex (["a", "b", "c"]) ([[0], [1], [0, 1]]) ([1, 1, 2])).knn ([0]) 5).Perm
      (scoredEntries ([0]) 0 ((["a", "b", "c"]).zip ([[0], [1], [0, 1]]))) := by
  have h := C1_distributed_knn_refines_single (["a", "b", "c"])
    ([[0], [1], [0, 1]]) ([1, 1, 2]) 2 5 ([0]) (by decide)
  exact ⟨⟨by decide, by decide⟩, h.1, h.2 (by decide)⟩

end Marsi
